import Mathlib

/-!
NumberToDigits/blocks.cpp : block tables and block-wise integer printing

A shallow embedding of `src/C++/NumberToDigits/blocks.cpp`.

* `unsigned int` values are naturals reduced modulo `2^32` where the source can wrap;
  `int` and `int64_t` values are integers, the latter wrapped to 64 bits on negation.
* Arrays are lists of their declared length; every access is checked against the
  bounds and an out-of-bounds access makes the computation fail (`none`).
* Loops are structural recursions on a fuel argument; running out of fuel is `none`.
-/

namespace NumberToDigits

/-! ## Constant tables -/

/-- The table `digits_per_byte[37][2]`: for each base, a fraction `{numerator, denominator}`. -/
def digits_per_byte_table : List (Nat × Nat) :=
  [ (0,0),
    (0,0),
    (8,1),(400,79),
    (4,1),(100,29),(400,129),(20,7),
    (8,3),(200,79),(200,83),(160,69),(400,179),(80,37),(40,19),(80,39),
    (2,1),(100,51),(25,13),(100,53),(50,27),(800,439),(160,89),(200,113),(400,229),(50,29),
    (80,47),(32,19),(5,3),(160,97),(80,49),(160,99),
    (8,5),(100,63),(200,127),(25,16),(200,129) ]

/-- The entry `digits_per_byte[base]` as the pair (`[base][0]`, `[base][1]`). -/
def digits_per_byte (base : Nat) : Nat × Nat :=
  digits_per_byte_table.getD base (0, 0)

/-- The array `digit_t::digits` after the constructor ran: 36 zero-initialised characters,
then `digits[d-'0'] = d` for `d = '0'..'9'` and `digits[d-'A'+10] = d` for `d = 'A'..'Z'`. -/
def digit_t : List Char :=
  let zeroed : List Char := List.replicate 36 (Char.ofNat 0)
  let withDecimal := (List.range 10).foldl (fun a k => a.set k (Char.ofNat (48 + k))) zeroed
  (List.range 26).foldl (fun a k => a.set (k + 10) (Char.ofNat (65 + k))) withDecimal

/-- The global `digits`, read through `operator[]`. -/
def digits (i : Nat) : Char :=
  digit_t.getD i (Char.ofNat 0)

/-! ## `pow` and the table size -/

/-- The loop of `pow`: `while( exp-- ) r *= base;` in `unsigned int` arithmetic. -/
def pow_loop (base : Nat) : Nat → Nat → Nat
  | 0, r => r
  | exp + 1, r => pow_loop base exp ((r * base) % 2 ^ 32)

/-- The function `pow(base, exp)`, computed modulo `2^32`. -/
def pow (base exp : Nat) : Nat :=
  pow_loop base exp 1

/-- The member `block_number` of `digit_blocks_t<digits_per_block, base>`: the template is
enabled only for `1 < base < 37`, and the `int` member is brace-initialised from the
`unsigned int` constant `pow(base, digits_per_block)`, which is refused (narrowing) when
the value does not fit an `int`. -/
def block_number (digits_per_block base : Nat) : Option Nat :=
  if 1 < base ∧ base < 37 then
    if pow base digits_per_block ≤ 2 ^ 31 - 1 then some (pow base digits_per_block) else none
  else none

/-! ## The block table -/

/-- Contents of `block_type blocks[block_number]`: `block_number` rows of
`digits_per_block` characters. -/
abbrev BlockArray := List (List Char)

/-- Checked load `blocks[i][p]`. -/
def blocks_read (b : BlockArray) (i p : Nat) : Option Char :=
  match b[i]? with
  | none => none
  | some row => row[p]?

/-- Checked store `blocks[i][p] = c`. -/
def blocks_write (b : BlockArray) (i p : Nat) (c : Char) : Option BlockArray :=
  match b[i]? with
  | none => none
  | some row => if p < row.length then some (b.set i (row.set p c)) else none

/-- State threaded through `filling`: the array and the counter `i` (passed by reference). -/
structure FillState where
  blocks : BlockArray
  i : Nat

/-- The loop `for( int j=0; j<position; ++j ) blocks[i][j] = blocks[i-1][j];`, with `count`
iterations left and `i-1` computed in `unsigned int`. -/
def copy_previous (i : Nat) : Nat → Nat → BlockArray → Option BlockArray
  | 0, _, b => some b
  | count + 1, j, b =>
    match blocks_read b ((i + (2 ^ 32 - 1)) % 2 ^ 32) j with
    | none => none
    | some c =>
      match blocks_write b i j c with
      | none => none
      | some b1 => copy_previous i count (j + 1) b1

/-- The loop `while( ++i_digit<base ){ ... filling<position+1>(i); }` of `filling<position>`,
where `inner` is `filling<position+1>`. -/
def filling_while (base position : Nat) (inner : FillState → Option FillState) :
    Nat → Nat → FillState → Option FillState
  | 0, _, _ => none
  | fuel + 1, i_digit, st =>
    if i_digit + 1 < base then
      match copy_previous st.i position 0 st.blocks with
      | none => none
      | some b1 =>
        match blocks_write b1 st.i position (digits (i_digit + 1)) with
        | none => none
        | some b2 =>
          match inner { st with blocks := b2 } with
          | none => none
          | some st1 => filling_while base position inner fuel (i_digit + 1) st1
    else some st

/-- The member template `filling<position>(i)`; the first argument is
`digits_per_block - position`, the number of template instantiations still below. -/
def filling (base : Nat) : Nat → Nat → FillState → Option FillState
  | 0, _, st => some { st with i := (st.i + 1) % 2 ^ 32 }
  | k + 1, position, st =>
    match blocks_write st.blocks st.i position (digits 0) with
    | none => none
    | some b1 =>
      match filling base k (position + 1) { st with blocks := b1 } with
      | none => none
      | some st1 =>
        filling_while base position (filling base k (position + 1)) base 0 st1

/-- A constructed `digit_blocks_t<digits_per_block, base>`. -/
structure digit_blocks_t where
  digits_per_block : Nat
  base : Nat
  block_number : Nat
  blocks : BlockArray
  deriving DecidableEq

/-- The constructor `digit_blocks_t()`: `blocks{}` zero-initialised, then `filling<0>(i)`
with `i = 0`. The constructor is `constexpr` and the program only runs it in constant
evaluation (the `constexpr static` member `digit_blocks`), where an access outside an
array is a compile-time error. So the construction is refused (`none`) when the template
is not enabled, when `block_number` is refused, or when the fill leaves the array. -/
def digit_blocks_t.construct (digits_per_block base : Nat) : Option digit_blocks_t :=
  match NumberToDigits.block_number digits_per_block base with
  | none => none
  | some bn =>
    match filling base digits_per_block 0
        { blocks := List.replicate bn (List.replicate digits_per_block (Char.ofNat 0)),
          i := 0 } with
    | none => none
    | some st =>
      some { digits_per_block := digits_per_block, base := base, block_number := bn,
             blocks := st.blocks }

/-- Checked `digit_blocks[r][j]` with `int` indices. -/
def digit_blocks_t.read (t : digit_blocks_t) (r j : Int) : Option Char :=
  if 0 ≤ r ∧ 0 ≤ j then blocks_read t.blocks r.toNat j.toNat else none

/-! ## The integer printer -/

/-- The value `sizeof(integer)` for `integer = int64_t`. -/
def sizeof_integer : Nat := 8

/-- The initialiser of `digit_count_max`:
`1+((1+block_size+sizeof(integer)*digits_per_byte[base][0]/digits_per_byte[base][1])/block_size)*block_size`.
`1+block_size` is an `unsigned int` sum; everything after it is `size_t` arithmetic, which
cannot wrap for these operands. -/
def digit_count_max (base block_size : Nat) : Nat :=
  1 + (((1 + block_size) % 2 ^ 32
        + sizeof_integer * (digits_per_byte base).1 / (digits_per_byte base).2) / block_size)
      * block_size

/-- One access to the buffer `s`. -/
inductive Access where
  | read (index : Int)
  | write (index : Int)
  deriving DecidableEq

/-- The index of an access. -/
def Access.index : Access → Int
  | Access.read i => i
  | Access.write i => i

/-- State of `print`: the buffer `s`, the characters sent to `out`, and the accesses made
to `s` so far (most recent first). -/
structure PrintState where
  s : List Char
  out : List Char
  trace : List Access

/-- Checked load `s[idx]`. -/
def s_read (st : PrintState) (idx : Int) : Option (Char × PrintState) :=
  if 0 ≤ idx then
    match st.s[idx.toNat]? with
    | none => none
    | some c => some (c, { st with trace := Access.read idx :: st.trace })
  else none

/-- Checked store `s[idx] = c`. -/
def s_write (st : PrintState) (idx : Int) (c : Char) : Option PrintState :=
  if 0 ≤ idx ∧ idx < st.s.length then
    some { st with s := st.s.set idx.toNat c, trace := Access.write idx :: st.trace }
  else none

/-- Two's-complement wrap of an integer to `int64_t`. -/
def wrap64 (x : Int) : Int :=
  (x + 2 ^ 63) % 2 ^ 64 - 2 ^ 63

/-- The loop
`for( const int stop{position-int(block_size)}; position>stop; --position ) s[position] = digit_blocks[r][position-stop-1];`
returning the final `position`. -/
def copy_block (t : digit_blocks_t) (r stop : Int) : Nat → Int → PrintState → Option (Int × PrintState)
  | 0, position, st => if position > stop then none else some (position, st)
  | fuel + 1, position, st =>
    if position > stop then
      match t.read r (position - stop - 1) with
      | none => none
      | some c =>
        match s_write st position c with
        | none => none
        | some st1 => copy_block t r stop fuel (position - 1) st1
    else some (position, st)

/-- The loop `while( n>0 ){ integer r{ n % block_number }; ...; n/=block_number; }`,
returning the final `position`. -/
def block_loop (t : digit_blocks_t) : Nat → Int → Int → PrintState → Option (Int × PrintState)
  | 0, n, position, st => if n > 0 then none else some (position, st)
  | fuel + 1, n, position, st =>
    if n > 0 then
      if t.block_number = 0 then none
      else
        match copy_block t (n.tmod t.block_number) (position - t.digits_per_block)
            t.digits_per_block position st with
        | none => none
        | some (position1, st1) => block_loop t fuel (n.tdiv t.block_number) position1 st1
    else some (position, st)

/-- The loop `while( s[++position]==digits[0] );`, returning the final `position`. -/
def skip_zeros : Nat → Int → PrintState → Option (Int × PrintState)
  | 0, _, _ => none
  | fuel + 1, position, st =>
    match s_read st (position + 1) with
    | none => none
    | some (c, st1) =>
      if c = digits 0 then skip_zeros fuel (position + 1) st1 else some (position + 1, st1)

/-- The insertion `out << (s+position)`: the characters from `position` up to the first
null character. -/
def put_cstr : Nat → Int → PrintState → Option PrintState
  | 0, _, _ => none
  | fuel + 1, position, st =>
    match s_read st position with
    | none => none
    | some (c, st1) =>
      if c = Char.ofNat 0 then some st1
      else put_cstr fuel (position + 1) { st1 with out := st1.out ++ [c] }

/-- The body of `for( auto n: integers )` in `print`. -/
def print_one (t : digit_blocks_t) (dcm : Nat) (st : PrintState) (n : Int) :
    Option PrintState :=
  if n = 0 then some { st with out := st.out ++ [digits 0, ' '] }
  else
    let sign : Char := if n < 0 then '-' else '+'
    let n1 : Int := if n < 0 then wrap64 (-n) else n
    match block_loop t (8 * sizeof_integer) n1 ((dcm : Int) - 2) st with
    | none => none
    | some (position1, st1) =>
      match skip_zeros (dcm + 1) position1 st1 with
      | none => none
      | some (position2, st2) =>
        match s_write st2 (position2 - 1) sign with
        | none => none
        | some st3 =>
          match put_cstr (dcm + 1) (position2 - 1) st3 with
          | none => none
          | some st4 => some { st4 with out := st4.out ++ [' '] }

/-- The loop `for( auto n: integers )`. -/
def print_loop (t : digit_blocks_t) (dcm : Nat) : List Int → PrintState → Option PrintState
  | [], st => some st
  | n :: rest, st =>
    match print_one t dcm st n with
    | none => none
    | some st1 => print_loop t dcm rest st1

/-- The state in which `print` enters its loop: `char s[digit_count_max]` with arbitrary
contents `uninit`, then `s[digit_count_max-1]='\0'`. -/
def print_init (dcm : Nat) (uninit : Nat → Char) : Option PrintState :=
  s_write { s := (List.range dcm).map uninit, out := [], trace := [] } ((dcm : Int) - 1)
    (Char.ofNat 0)

/-- The member `integer_printer_t<base, block_size>::print` for `integer = int64_t`, run on
a stream that starts empty: the final state. The static member `digit_blocks` must have
been constructed and `digit_count_max` must fit its `int`. -/
def integer_printer_t.print_state (base block_size : Nat) (integers : List Int)
    (uninit : Nat → Char) :
    Option PrintState :=
  match digit_blocks_t.construct block_size base with
  | none => none
  | some t =>
    if digit_count_max base block_size ≤ 2 ^ 31 - 1 then
      match print_init (digit_count_max base block_size) uninit with
      | none => none
      | some st => print_loop t (digit_count_max base block_size) integers st
    else none

/-- The characters `print` sends to `out`. -/
def integer_printer_t.print (base block_size : Nat) (integers : List Int)
    (uninit : Nat → Char) :
    Option (List Char) :=
  (integer_printer_t.print_state base block_size integers uninit).map PrintState.out

/-! ## Specification-side definitions and proof invariants -/

/-- The digit alphabet as the specification words it: `0`-`9` map to `'0'`-`'9'`, and
`10`-`35` map to `'A'`-`'Z'`. -/
def digitChar (v : Nat) : Char :=
  if v < 10 then Char.ofNat (48 + v) else Char.ofNat (55 + v)

/-- The number `8 * numerator / denominator` of `digits_per_byte[base]`. -/
def digitsBound (base : Nat) : Nat :=
  sizeof_integer * (digits_per_byte base).1 / (digits_per_byte base).2

/-- The array has `bn` rows of `w` characters. -/
def Shape (bn w : Nat) (b : BlockArray) : Prop :=
  b.length = bn ∧ ∀ row ∈ b, row.length = w

/-- Cell `(row, col)` holds the digit of `row` that belongs in column `col` of a
`w`-digit block in base `r`. -/
def Correct (r w : Nat) (b : BlockArray) (row col : Nat) : Prop :=
  blocks_read b row col = some (digits (row / r ^ (w - 1 - col) % r))

/-- What `filling<position>` achieves, stated for a function `f` standing for it: called
with `i` a multiple of `r^k`, all rows below `i` finished and the first `p` columns of row
`i` set, it finishes rows `i .. i + r^k - 1` and leaves `i` advanced by `r^k`. -/
def FillSpec (r w bn k p : Nat) (f : FillState → Option FillState) : Prop :=
  ∀ st : FillState, r ^ k ∣ st.i → st.i + r ^ k ≤ bn → Shape bn w st.blocks →
    (∀ row, row < st.i → ∀ col, col < w → Correct r w st.blocks row col) →
    (∀ col, col < p → Correct r w st.blocks st.i col) →
    ∃ st1, f st = some st1 ∧ st1.i = st.i + r ^ k ∧ Shape bn w st1.blocks ∧
      ∀ row, row < st1.i → ∀ col, col < w → Correct r w st1.blocks row col

/-- The `w`-character string of the base-`r` digits of `i`, most significant first,
left-padded with `'0'`, over the alphabet `0-9A-Z`. -/
def blockText (r w i : Nat) : List Char :=
  List.replicate (w - (Nat.digits r i).length) '0' ++ (Nat.digits r i).reverse.map digitChar

/-- What a successfully constructed table looks like. -/
structure TableOK (r w : Nat) (t : digit_blocks_t) : Prop where
  base_eq : t.base = r
  width_eq : t.digits_per_block = w
  number_eq : t.block_number = r ^ w
  length_eq : t.blocks.length = r ^ w
  row_eq : ∀ i, i < r ^ w → t.blocks[i]? = some (blockText r w i)

/-- The content of `s[idx]`, when `idx` is within the buffer. -/
def sget (s : List Char) (idx : Int) : Option Char :=
  if 0 ≤ idx then s[idx.toNat]? else none

/-- The accesses `new` stay inside a buffer of `cap` characters and no store touches the
last one (the terminator). -/
def Good (cap : Nat) (new : List Access) : Prop :=
  ∀ a ∈ new, 0 ≤ a.index ∧ a.index ≤ (cap : Int) - 1 ∧
    ∀ i, a = Access.write i → i ≤ (cap : Int) - 2

/-- State `st1` is reached from `st` by accesses that are `Good`. -/
def TraceExt (cap : Nat) (st st1 : PrintState) : Prop :=
  ∃ new, st1.trace = new ++ st.trace ∧ Good cap new

/-- The base-`r` digits of `N`, most significant first, over the alphabet `0-9A-Z`
(empty for `N = 0`). -/
def digitsText (r N : Nat) : List Char :=
  (Nat.digits r N).reverse.map digitChar

/-- The text of `n` in base `r`: the single digit `0` for zero, and otherwise a sign
character (`-` for negative, `+` for positive numbers) followed by the digits of `|n|`
without leading zeros. -/
def text (r : Nat) (n : Int) : List Char :=
  if n = 0 then ['0'] else (if n < 0 then '-' else '+') :: digitsText r n.natAbs

/-- The expected output for a list of integers: each text followed by one space. -/
def printed (r : Nat) : List Int → List Char
  | [] => []
  | n :: rest => text r n ++ ' ' :: printed r rest

/-- The accesses of the whole call: everything after the first store (the terminator)
is `Good`. -/
def InitThenGood (dcm : Nat) (trace : List Access) : Prop :=
  ∃ new, trace = new ++ [Access.write ((dcm : Int) - 1)] ∧ Good dcm new

/-- The value of a digit character of the alphabet `0-9A-Z`. -/
def digitValue (c : Char) : Option Nat :=
  if 48 ≤ c.toNat ∧ c.toNat ≤ 57 then some (c.toNat - 48)
  else if 65 ≤ c.toNat ∧ c.toNat ≤ 90 then some (c.toNat - 55)
  else none

/-- Reads a string of base-`r` digits, most significant first, onto the accumulator. -/
def parseDigits (r : Nat) : List Char → Nat → Option Nat
  | [], acc => some acc
  | c :: cs, acc =>
    match digitValue c with
    | none => none
    | some v => if v < r then parseDigits r cs (acc * r + v) else none

/-- Reads a base-`r` signed integer literal: an optional sign `+` or `-` followed by one
or more digits of the alphabet `0-9A-Z` below `r`. -/
def parseInteger (r : Nat) : List Char → Option Int
  | [] => none
  | c :: cs =>
    if c = '-' then
      if cs = [] then none else (parseDigits r cs 0).map (fun v : Nat => - (v : Int))
    else if c = '+' then
      if cs = [] then none else (parseDigits r cs 0).map (fun v : Nat => (v : Int))
    else (parseDigits r (c :: cs) 0).map (fun v : Nat => (v : Int))

/-- What a successful run of `filling<position>` implies, stated for a function `f`
standing for it: the rows it finished were all inside the array. -/
def FillSucc (r k : Nat) (f : FillState → Option FillState) : Prop :=
  ∀ st st1 : FillState, (k = 0 → st.i < st.blocks.length) → st.blocks.length < 2 ^ 32 →
    f st = some st1 →
    st1.i = st.i + r ^ k ∧ st.i + r ^ k ≤ st.blocks.length ∧
      st1.blocks.length = st.blocks.length

/-- Ceiling of the quotient `a / b`. -/
def ceilDiv (a b : Nat) : Nat :=
  (a + b - 1) / b

/-- The digit bound as the specification words it:
`max_digit_count(r, bit_width) = ceil(bit_width * denominator / numerator) + 1` with
`(numerator, denominator) = digits_per_byte[r]`. -/
def max_digit_count_spec (r bit_width : Nat) : Nat :=
  ceilDiv (bit_width * (digits_per_byte r).2) (digits_per_byte r).1 + 1

/-! ## Definitions for the table-fill log, the loop trace and `test_range` -/

/-- The calls `tester<base, b>` made by `test_range<block_size_min, block_size_max,
block_size_step, base>::call`, in order, as pairs `(base, b)`: the template is enabled
only for `block_size_min <= block_size_max`, the sequence has
`1+(block_size_max-block_size_min+block_size_step-1)/block_size_step` elements `Ints`
(a constant expression in `unsigned int`, refused when the step is 0), and the block
size of each call is `block_size_min + Ints*block_size_step` in `unsigned int`. -/
def test_range.call (block_size_min block_size_max block_size_step base : Nat) :
    Option (List (Nat × Nat)) :=
  if block_size_min ≤ block_size_max then
    if block_size_step = 0 then none
    else
      let count : Nat :=
        (1 + (((block_size_max - block_size_min + block_size_step) % 2 ^ 32 + (2 ^ 32 - 1))
                % 2 ^ 32) / block_size_step) % 2 ^ 32
      some ((List.range count).map
        (fun Ints => (base, (block_size_min + (Ints * block_size_step) % 2 ^ 32) % 2 ^ 32)))
  else none

/-- The block sizes the specification names for a range: `block_size_min`,
`block_size_min + step`, `block_size_min + 2*step`, ... as long as they do not exceed
`block_size_max`, in increasing order. -/
def rangeSizes (block_size_min block_size_max block_size_step : Nat) : List Nat :=
  (List.range ((block_size_max - block_size_min) / block_size_step + 1)).map
    (fun k => block_size_min + k * block_size_step)

/-- Stores at `count` consecutive indices of `s` ending at `position`, as they appear in a
trace (most recent first): the store at `position` was made first and is listed last. -/
def storesDown (position : Int) : Nat → List Access
  | 0 => []
  | count + 1 => storesDown (position - 1) count ++ [Access.write position]

/-- One step of the table fill that touches `blocks` or the alphabet. -/
inductive FillEvent where
  | store (row col : Nat)
  | copy (row col : Nat)
  | digit (index : Nat)
  deriving DecidableEq

/-- The loop `for( int j=0; j<position; ++j ) blocks[i][j] = blocks[i-1][j];` as in
`copy_previous`, recording each executed assignment as `FillEvent.copy i j`. -/
def copy_previous_logged (i : Nat) :
    Nat → Nat → BlockArray × List FillEvent → Option (BlockArray × List FillEvent)
  | 0, _, x => some x
  | count + 1, j, (b, log) =>
    match blocks_read b ((i + (2 ^ 32 - 1)) % 2 ^ 32) j with
    | none => none
    | some c =>
      match blocks_write b i j c with
      | none => none
      | some b1 => copy_previous_logged i count (j + 1) (b1, FillEvent.copy i j :: log)

/-- The loop of `filling<position>` as in `filling_while`, recording each executed
`blocks[i][position] = digits[i_digit]` as `FillEvent.digit i_digit` followed by
`FillEvent.store i position` (the log lists the most recent event first). -/
def filling_while_logged (base position : Nat)
    (inner : FillState × List FillEvent → Option (FillState × List FillEvent)) :
    Nat → Nat → FillState × List FillEvent → Option (FillState × List FillEvent)
  | 0, _, _ => none
  | fuel + 1, i_digit, (st, log) =>
    if i_digit + 1 < base then
      match copy_previous_logged st.i position 0 (st.blocks, log) with
      | none => none
      | some (b1, log1) =>
        match blocks_write b1 st.i position (digits (i_digit + 1)) with
        | none => none
        | some b2 =>
          match inner ({ st with blocks := b2 },
              FillEvent.store st.i position :: FillEvent.digit (i_digit + 1) :: log1) with
          | none => none
          | some x => filling_while_logged base position inner fuel (i_digit + 1) x
    else some (st, log)

/-- The member template `filling<position>(i)` as in `filling`, with the log of its
stores, copies and alphabet look-ups. -/
def filling_logged (base : Nat) :
    Nat → Nat → FillState × List FillEvent → Option (FillState × List FillEvent)
  | 0, _, (st, log) => some ({ st with i := (st.i + 1) % 2 ^ 32 }, log)
  | k + 1, position, (st, log) =>
    match blocks_write st.blocks st.i position (digits 0) with
    | none => none
    | some b1 =>
      match filling_logged base k (position + 1)
          ({ st with blocks := b1 },
            FillEvent.store st.i position :: FillEvent.digit 0 :: log) with
      | none => none
      | some x =>
        filling_while_logged base position (filling_logged base k (position + 1)) base 0 x

/-- An event of a call that works on rows `lo .. hi-1` is in order: a store is inside
these rows and the `w` columns, a copy besides has a row above `lo` (so that the row
before it exists), and an alphabet index is below the radix `r`. -/
def EventOK (r w lo hi : Nat) : FillEvent → Prop
  | FillEvent.store row col => lo ≤ row ∧ row < hi ∧ col < w
  | FillEvent.copy row col => lo < row ∧ row < hi ∧ col < w
  | FillEvent.digit index => index < r

/-- Cell `(row, col)` is assigned by some event of the log. -/
def Covered (log : List FillEvent) (row col : Nat) : Prop :=
  FillEvent.store row col ∈ log ∨ FillEvent.copy row col ∈ log

/-- What a successful logged run of `filling<position>` implies, stated for a function
`f` standing for it: the counter advances by `r^k` inside the array, the events are in
order for the rows `i .. i + r^k - 1`, and they assign the columns from `p` on of row
`i` and every column of the rows after it. -/
def LogSpec (r w bn k p : Nat)
    (f : FillState × List FillEvent → Option (FillState × List FillEvent)) : Prop :=
  ∀ (st : FillState) (log : List FillEvent) (st1 : FillState) (log1 : List FillEvent),
    Shape bn w st.blocks → (k = 0 → st.i < bn) → f (st, log) = some (st1, log1) →
    st1.i = st.i + r ^ k ∧ st.i + r ^ k ≤ bn ∧ Shape bn w st1.blocks ∧
    ∃ new, log1 = new ++ log ∧ (∀ e ∈ new, EventOK r w st.i (st.i + r ^ k) e) ∧
      (∀ col, p ≤ col → col < w → Covered new st.i col) ∧
      (∀ row col, st.i < row → row < st.i + r ^ k → col < w → Covered new row col)

/-! ## Lemmas -/

theorem digits_eq_digitChar (v : Nat) (h : v < 36) : digits v = digitChar v := by
  interval_cases v <;> decide

theorem digitChar_ne_nul (v : Nat) (h : v < 36) : digitChar v ≠ Char.ofNat 0 := by
  interval_cases v <;> decide

theorem digitChar_ne_space (v : Nat) (h : v < 36) : digitChar v ≠ ' ' := by
  interval_cases v <;> decide

theorem digitChar_eq_zero_iff (v : Nat) (h : v < 36) : digitChar v = digitChar 0 ↔ v = 0 := by
  interval_cases v <;> decide

theorem pow_loop_eq (base : Nat) : ∀ (e r : Nat), r < 2 ^ 32 →
    pow_loop base e r = (r * base ^ e) % 2 ^ 32
  | 0, r, h => by
    simp only [pow_loop, pow_zero, mul_one]
    omega
  | e + 1, r, h => by
    rw [pow_loop, pow_loop_eq base e _ (Nat.mod_lt _ (by norm_num))]
    rw [Nat.mod_mul_mod, pow_succ']
    ring_nf

theorem pow_eq (base e : Nat) : pow base e = base ^ e % 2 ^ 32 := by
  rw [pow, pow_loop_eq base e 1 (by norm_num), one_mul]

theorem block_number_eq (w r : Nat) (h2 : 2 ≤ r) (h36 : r ≤ 36) (hw : r ^ w ≤ 2 ^ 31 - 1) :
    block_number w r = some (r ^ w) := by
  have hp : pow r w = r ^ w := by
    rw [pow_eq]; exact Nat.mod_eq_of_lt (by omega)
  simp only [block_number, hp]
  rw [if_pos (by omega), if_pos hw]

theorem two_pow_63_le (r : Nat) (h2 : 2 ≤ r) (h36 : r ≤ 36) :
    2 ^ 63 ≤ r ^ (digitsBound r + 1) := by
  interval_cases r <;> decide

theorem blocks_write_spec {bn w : Nat} {b : BlockArray} (hs : Shape bn w b) {i p : Nat}
    (hi : i < bn) (hp : p < w) (c : Char) :
    ∃ b1, blocks_write b i p c = some b1 ∧ Shape bn w b1 ∧
      ∀ i1 p1, blocks_read b1 i1 p1 = if i1 = i ∧ p1 = p then some c else blocks_read b i1 p1 := by
  obtain ⟨hlen, hrows⟩ := hs
  have hib : i < b.length := by omega
  have hget : b[i]? = some b[i] := List.getElem?_eq_getElem hib
  have hrow : (b[i]).length = w := hrows _ (List.getElem_mem _)
  refine ⟨b.set i ((b[i]).set p c), ?_, ⟨?_, ?_⟩, ?_⟩
  · simp only [blocks_write, hget]
    rw [if_pos (by omega)]
  · simp [hlen]
  · intro row hmem
    rcases List.mem_or_eq_of_mem_set hmem with h | h
    · exact hrows _ h
    · rw [h, List.length_set]; exact hrow
  · intro i1 p1
    simp only [blocks_read, List.getElem?_set]
    by_cases h1 : i = i1
    · subst h1
      simp only [if_true, hib, true_and]
      by_cases h2 : p1 = p
      · subst h2
        simp [hrow, hp]
      · have h3 : p ≠ p1 := fun h => h2 h.symm
        simp [h2, h3, hget]
    · have h3 : ¬ i1 = i := fun h => h1 h.symm
      simp [h1, h3]

theorem blocks_read_some {bn w : Nat} {b : BlockArray} (hs : Shape bn w b) {i p : Nat}
    (hi : i < bn) (hp : p < w) : ∃ c, blocks_read b i p = some c := by
  obtain ⟨hlen, hrows⟩ := hs
  have hib : i < b.length := by omega
  have hrow : (b[i]).length = w := hrows _ (List.getElem_mem _)
  refine ⟨(b[i])[p], ?_⟩
  simp only [blocks_read, List.getElem?_eq_getElem hib]
  exact List.getElem?_eq_getElem (by omega)

theorem div_pow_pred_eq (r k q c : Nat) {e : Nat} (hc1 : 1 ≤ c) (hcr : c < r) (hke : k < e) :
    (q * r ^ (k + 1) + c * r ^ k - 1) / r ^ e = (q * r ^ (k + 1) + c * r ^ k) / r ^ e := by
  have hr : 0 < r := by omega
  have hR : 0 < r ^ k := pow_pos hr _
  obtain ⟨j, rfl⟩ : ∃ j, e = (k + 1) + j := ⟨e - (k + 1), by omega⟩
  have hM : 0 < r ^ (k + 1) := pow_pos hr _
  have hlt : c * r ^ k < r ^ (k + 1) := by
    rw [pow_succ]; nlinarith
  have hpos : 1 ≤ c * r ^ k := Nat.mul_pos hc1 hR
  have h1 : (q * r ^ (k + 1) + c * r ^ k) / r ^ (k + 1) = q := by
    rw [Nat.add_comm, Nat.add_mul_div_right _ _ hM, Nat.div_eq_of_lt hlt, Nat.zero_add]
  have h2 : (q * r ^ (k + 1) + c * r ^ k - 1) / r ^ (k + 1) = q := by
    have : q * r ^ (k + 1) + c * r ^ k - 1 = (c * r ^ k - 1) + q * r ^ (k + 1) := by omega
    rw [this, Nat.add_mul_div_right _ _ hM, Nat.div_eq_of_lt (by omega), Nat.zero_add]
  have he : r ^ (k + 1 + j) = r ^ (k + 1) * r ^ j := pow_add _ _ _
  rw [he, ← Nat.div_div_eq_div_mul, ← Nat.div_div_eq_div_mul, h1, h2]

theorem div_pow_mod_eq (r k q c : Nat) (hcr : c < r) :
    (q * r ^ (k + 1) + c * r ^ k) / r ^ k % r = c := by
  have hr : 0 < r := by omega
  have hR : 0 < r ^ k := pow_pos hr _
  have : q * r ^ (k + 1) + c * r ^ k = (q * r + c) * r ^ k := by ring
  rw [this, Nat.mul_div_cancel _ hR, Nat.add_comm, Nat.add_mul_mod_self_right,
    Nat.mod_eq_of_lt hcr]

theorem copy_previous_spec {bn w : Nat} (hbn : bn < 2 ^ 32) {i : Nat} (hi1 : 1 ≤ i)
    (hi : i < bn) : ∀ (count j : Nat) (b : BlockArray), Shape bn w b → j + count ≤ w →
    ∃ b1, copy_previous i count j b = some b1 ∧ Shape bn w b1 ∧
      ∀ i1 p1, blocks_read b1 i1 p1 =
        if i1 = i ∧ j ≤ p1 ∧ p1 < j + count then blocks_read b (i - 1) p1
        else blocks_read b i1 p1
  | 0, j, b, hs, _ => by
    refine ⟨b, rfl, hs, ?_⟩
    intro i1 p1
    rw [if_neg (by omega)]
  | count + 1, j, b, hs, hj => by
    have hprev : (i + (2 ^ 32 - 1)) % 2 ^ 32 = i - 1 := by omega
    obtain ⟨c, hc⟩ := blocks_read_some hs (show i - 1 < bn by omega) (show j < w by omega)
    obtain ⟨b1, hw1, hs1, hr1⟩ := blocks_write_spec hs hi (show j < w by omega) c
    obtain ⟨b2, hc2, hs2, hr2⟩ := copy_previous_spec hbn hi1 hi count (j + 1) b1 hs1 (by omega)
    refine ⟨b2, ?_, hs2, ?_⟩
    · simp only [copy_previous, hprev, hc, hw1, hc2]
    · intro i1 p1
      rw [hr2, hr1, hr1]
      have hne : ¬ (i - 1 = i ∧ p1 = j) := by omega
      rw [if_neg hne]
      by_cases h1 : i1 = i ∧ p1 = j
      · obtain ⟨h1a, h1b⟩ := h1
        subst h1a; subst h1b
        rw [if_neg (by omega), if_pos ⟨rfl, rfl⟩, if_pos (by omega), hc]
      · rw [if_neg h1]
        by_cases h2 : i1 = i ∧ j + 1 ≤ p1 ∧ p1 < j + 1 + count
        · rw [if_pos h2, if_pos (by omega)]
        · rw [if_neg h2, if_neg (by omega)]

theorem filling_while_spec {r w bn k p : Nat} (hr : 2 ≤ r) (hbn : bn < 2 ^ 32)
    (hpk : p + (k + 1) = w) {inner : FillState → Option FillState}
    (hinner : FillSpec r w bn k (p + 1) inner) (q : Nat)
    (hq : q * r ^ (k + 1) + r ^ (k + 1) ≤ bn) :
    ∀ (fuel d : Nat) (st : FillState), r ≤ fuel + d → d + 1 ≤ r →
      st.i = q * r ^ (k + 1) + (d + 1) * r ^ k → Shape bn w st.blocks →
      (∀ row, row < st.i → ∀ col, col < w → Correct r w st.blocks row col) →
      ∃ st1, filling_while r p inner fuel d st = some st1 ∧
        st1.i = q * r ^ (k + 1) + r ^ (k + 1) ∧ Shape bn w st1.blocks ∧
        ∀ row, row < st1.i → ∀ col, col < w → Correct r w st1.blocks row col
  | 0, d, st, hf, hd, _, _, _ => by omega
  | fuel + 1, d, st, hf, hd, hi, hs, hrows => by
    have hR : 0 < r ^ k := pow_pos (by omega) _
    have hpow : r ^ (k + 1) = r * r ^ k := by rw [pow_succ, Nat.mul_comm]
    by_cases hlt : d + 1 < r
    · -- one more digit value
      have hle : (d + 1) * r ^ k + r ^ k ≤ r * r ^ k := by
        have : (d + 2) * r ^ k ≤ r * r ^ k := Nat.mul_le_mul_right _ (by omega)
        calc (d + 1) * r ^ k + r ^ k = (d + 2) * r ^ k := by ring
          _ ≤ r * r ^ k := this
      have hpos : 1 ≤ (d + 1) * r ^ k := Nat.mul_pos (by omega) hR
      have hi1 : 1 ≤ st.i := by omega
      have hibn : st.i < bn := by omega
      obtain ⟨b1, hc1, hs1, hr1⟩ := copy_previous_spec hbn hi1 hibn p 0 st.blocks hs (by omega)
      obtain ⟨b2, hw2, hs2, hr2⟩ :=
        blocks_write_spec hs1 hibn (show p < w by omega) (digits (d + 1))
      have hrows2 : ∀ row, row < st.i → ∀ col, col < w → Correct r w b2 row col := by
        intro row hrow col hcol
        unfold Correct
        rw [hr2, if_neg (by omega), hr1, if_neg (by omega)]
        exact hrows row hrow col hcol
      have hcur2 : ∀ col, col < p + 1 → Correct r w b2 st.i col := by
        intro col hcol
        unfold Correct
        rw [hr2]
        by_cases hcp : col = p
        · subst hcp
          rw [if_pos ⟨rfl, rfl⟩]
          have : w - 1 - col = k := by omega
          rw [this, hi, div_pow_mod_eq r k q (d + 1) hlt]
        · rw [if_neg (by omega), hr1, if_pos (by omega)]
          have hprev := hrows (st.i - 1) (by omega) col (by omega)
          unfold Correct at hprev
          rw [hprev, hi, div_pow_pred_eq r k q (d + 1) (by omega) hlt (by omega)]
      have hdvd : r ^ k ∣ st.i := by
        rw [hi]
        exact ⟨q * r + (d + 1), by ring⟩
      obtain ⟨st1, hin, hi1', hs1', hrows1⟩ :=
        hinner { st with blocks := b2 } hdvd (by simp only; omega) hs2 hrows2 hcur2
      have hi1'' : st1.i = q * r ^ (k + 1) + (d + 1 + 1) * r ^ k := by
        rw [hi1']
        simp only
        rw [hi]; ring
      obtain ⟨st2, hfw, hres⟩ :=
        filling_while_spec hr hbn hpk hinner q hq fuel (d + 1) st1 (by omega) (by omega)
          hi1'' hs1' hrows1
      refine ⟨st2, ?_, hres⟩
      simp only [filling_while, if_pos hlt, hc1, hw2, hin, hfw]
    · -- the loop ends
      have hd' : d + 1 = r := by omega
      refine ⟨st, ?_, ?_, hs, hrows⟩
      · simp only [filling_while, if_neg hlt]
      · rw [hi, hd', hpow]

theorem filling_spec {r w bn : Nat} (hr : 2 ≤ r) (hbn : bn < 2 ^ 32) :
    ∀ (k p : Nat), p + k = w → FillSpec r w bn k p (filling r k p)
  | 0, p, hpk => by
    intro st _ hi hs hrows hcur
    simp only [pow_zero] at hi
    refine ⟨{ st with i := (st.i + 1) % 2 ^ 32 }, rfl, ?_, hs, ?_⟩
    · simp only [pow_zero]; omega
    · intro row hrow col hcol
      have hrow' : row < st.i + 1 := by
        have h := hrow
        simp only at h
        omega
      by_cases h : row < st.i
      · exact hrows row h col hcol
      · have : row = st.i := by omega
        subst this
        exact hcur col (by omega)
  | k + 1, p, hpk => by
    intro st hdvd hi hs hrows hcur
    have hR : 0 < r ^ k := pow_pos (by omega) _
    have hM : 0 < r ^ (k + 1) := pow_pos (by omega) _
    obtain ⟨q, hq⟩ := hdvd
    have hq' : st.i = q * r ^ (k + 1) := by rw [hq, Nat.mul_comm]
    obtain ⟨b1, hw1, hs1, hr1⟩ :=
      blocks_write_spec hs (show st.i < bn by omega) (show p < w by omega) (digits 0)
    have hrows1 : ∀ row, row < st.i → ∀ col, col < w → Correct r w b1 row col := by
      intro row hrow col hcol
      unfold Correct
      rw [hr1, if_neg (by omega)]
      exact hrows row hrow col hcol
    have hcur1 : ∀ col, col < p + 1 → Correct r w b1 st.i col := by
      intro col hcol
      unfold Correct
      rw [hr1]
      by_cases hcp : col = p
      · subst hcp
        rw [if_pos ⟨rfl, rfl⟩]
        have : w - 1 - col = k := by omega
        have h0 := div_pow_mod_eq r k q 0 (by omega)
        rw [Nat.zero_mul, Nat.add_zero] at h0
        rw [this, hq', h0]
      · rw [if_neg (by omega)]
        exact hcur col (by omega)
    have hdvd1 : r ^ k ∣ st.i := by
      rw [hq']; exact ⟨q * r, by ring⟩
    have hle : r ^ k ≤ r ^ (k + 1) := Nat.pow_le_pow_right (by omega) (by omega)
    obtain ⟨st1, hin, hi1, hs1', hrows1'⟩ :=
      filling_spec hr hbn k (p + 1) (by omega) { st with blocks := b1 } hdvd1
        (by simp only; omega) hs1 hrows1 hcur1
    have hi1' : st1.i = q * r ^ (k + 1) + (0 + 1) * r ^ k := by
      rw [hi1]; simp only; rw [hq']; ring
    obtain ⟨st2, hfw, hi2, hs2, hrows2⟩ :=
      filling_while_spec hr hbn (by omega) (filling_spec hr hbn k (p + 1) (by omega)) q
        (by omega) r 0 st1 (by omega) (by omega) hi1' hs1' hrows1'
    refine ⟨st2, ?_, ?_, hs2, hrows2⟩
    · simp only [filling, hw1, hin, hfw]
    · rw [hi2, hq']

theorem getD_digits (r : Nat) (hr : 2 ≤ r) : ∀ (e i : Nat),
    (Nat.digits r i).getD e 0 = i / r ^ e % r
  | e, 0 => by simp
  | 0, i + 1 => by
    rw [Nat.digits_def' (by omega) (by omega)]
    simp
  | e + 1, i + 1 => by
    rw [Nat.digits_def' (by omega) (by omega)]
    rw [List.getD_cons_succ, getD_digits r hr e, Nat.div_div_eq_div_mul, pow_succ']

theorem digits_length_le (r : Nat) (hr : 2 ≤ r) (w i : Nat) (hi : i < r ^ w) :
    (Nat.digits r i).length ≤ w := by
  by_cases h0 : i = 0
  · subst h0; simp
  · rw [Nat.digits_len r i (by omega) h0]
    have := (Nat.lt_pow_iff_log_lt (by omega : 1 < r) h0).mp hi
    omega

theorem blockText_length (r : Nat) (hr : 2 ≤ r) (w i : Nat) (hi : i < r ^ w) :
    (blockText r w i).length = w := by
  have := digits_length_le r hr w i hi
  simp only [blockText, List.length_append, List.length_replicate, List.length_map,
    List.length_reverse]
  omega

theorem blockText_getElem? (r : Nat) (hr : 2 ≤ r) (w i : Nat) (hi : i < r ^ w) (col : Nat)
    (hcol : col < w) :
    (blockText r w i)[col]? = some (digitChar (i / r ^ (w - 1 - col) % r)) := by
  have hL := digits_length_le r hr w i hi
  rw [← getD_digits r hr]
  unfold blockText
  by_cases h : col < w - (Nat.digits r i).length
  · rw [List.getElem?_append_left (by simpa using h)]
    rw [List.getElem?_replicate, if_pos h]
    rw [List.getD_eq_default _ _ (by omega)]
    rfl
  · rw [List.getElem?_append_right (by simpa using h)]
    simp only [List.length_replicate]
    have hlt : col - (w - (Nat.digits r i).length) < (Nat.digits r i).length := by omega
    rw [List.getElem?_map, List.getElem?_reverse hlt]
    have he : (Nat.digits r i).length - 1 - (col - (w - (Nat.digits r i).length))
        = w - 1 - col := by omega
    rw [he]
    have hlt2 : w - 1 - col < (Nat.digits r i).length := by omega
    rw [List.getElem?_eq_getElem hlt2, List.getD_eq_getElem _ _ hlt2]
    rfl

theorem row_eq_blockText {r w bn : Nat} (hr : 2 ≤ r) (hr36 : r ≤ 36) {b : BlockArray}
    (hs : Shape bn w b) {i : Nat} (hi : i < bn) (hiw : i < r ^ w)
    (hc : ∀ col, col < w → Correct r w b i col) : b[i]? = some (blockText r w i) := by
  obtain ⟨hlen, hrows⟩ := hs
  have hib : i < b.length := by omega
  have hrow : (b[i]).length = w := hrows _ (List.getElem_mem _)
  rw [List.getElem?_eq_getElem hib]
  congr 1
  apply List.ext_getElem?
  intro col
  by_cases hcol : col < w
  · have h1 := hc col hcol
    unfold Correct at h1
    simp only [blocks_read, List.getElem?_eq_getElem hib] at h1
    rw [h1, blockText_getElem? r hr w i hiw col hcol]
    rw [digits_eq_digitChar _ (by
      have : i / r ^ (w - 1 - col) % r < r := Nat.mod_lt _ (by omega)
      omega)]
  · rw [List.getElem?_eq_none (by omega),
      List.getElem?_eq_none (by rw [blockText_length r hr w i hiw]; omega)]

theorem construct_spec (r w : Nat) (h2 : 2 ≤ r) (h36 : r ≤ 36)
    (hw : r ^ w ≤ 2 ^ 31 - 1) :
    ∃ t, digit_blocks_t.construct w r = some t ∧ TableOK r w t := by
  have hbn := block_number_eq w r h2 h36 hw
  have hshape : Shape (r ^ w) w (List.replicate (r ^ w) (List.replicate w (Char.ofNat 0))) := by
    refine ⟨by simp, ?_⟩
    intro row hrow
    rw [List.eq_of_mem_replicate hrow]
    simp
  obtain ⟨st, hf, hi, hs, hrows⟩ :=
    filling_spec h2 (show r ^ w < 2 ^ 32 by omega) w 0 (by omega)
      { blocks := List.replicate (r ^ w) (List.replicate w (Char.ofNat 0)), i := 0 }
      (by simp) (by simp) hshape (by intro row h; simp at h) (by intro col h; omega)
  simp only [Nat.zero_add] at hi
  refine ⟨{ digits_per_block := w, base := r, block_number := r ^ w, blocks := st.blocks },
    ?_, ⟨rfl, rfl, rfl, hs.1, ?_⟩⟩
  · simp only [digit_blocks_t.construct, hbn, hf]
  · intro i hiw
    exact row_eq_blockText h2 h36 hs hiw hiw (fun col hcol => hrows i (by omega) col hcol)

theorem TraceExt.refl (cap : Nat) (st : PrintState) : TraceExt cap st st :=
  ⟨[], rfl, by intro a h; simp at h⟩

theorem TraceExt.trans {cap : Nat} {a b c : PrintState} (h1 : TraceExt cap a b)
    (h2 : TraceExt cap b c) : TraceExt cap a c := by
  obtain ⟨n1, e1, g1⟩ := h1
  obtain ⟨n2, e2, g2⟩ := h2
  refine ⟨n2 ++ n1, by rw [e2, e1, List.append_assoc], ?_⟩
  intro x hx
  rcases List.mem_append.mp hx with h | h
  · exact g2 x h
  · exact g1 x h

theorem sget_some_bounds {s : List Char} {idx : Int} {c : Char} (h : sget s idx = some c) :
    0 ≤ idx ∧ idx < s.length := by
  unfold sget at h
  by_cases h0 : 0 ≤ idx
  · rw [if_pos h0] at h
    have := (List.getElem?_eq_some_iff.mp h).1
    omega
  · rw [if_neg h0] at h
    cases h

theorem sget_of_bounds {s : List Char} {idx : Int} (h0 : 0 ≤ idx) (h1 : idx < s.length) :
    ∃ c, sget s idx = some c := by
  have hlt : idx.toNat < s.length := by omega
  exact ⟨s[idx.toNat], by rw [sget, if_pos h0, List.getElem?_eq_getElem hlt]⟩

theorem s_write_spec (st : PrintState) {idx : Int} (h0 : 0 ≤ idx)
    (h1 : idx < (st.s.length : Int) - 1) (c : Char) :
    ∃ st1, s_write st idx c = some st1 ∧ st1.s.length = st.s.length ∧ st1.out = st.out ∧
      TraceExt st.s.length st st1 ∧
      ∀ j, sget st1.s j = if j = idx then some c else sget st.s j := by
  refine ⟨{ st with s := st.s.set idx.toNat c, trace := Access.write idx :: st.trace },
    ?_, by simp, rfl, ⟨[Access.write idx], rfl, ?_⟩, ?_⟩
  · rw [s_write, if_pos ⟨h0, by omega⟩]
  · intro a ha
    simp only [List.mem_singleton] at ha
    subst ha
    refine ⟨h0, by simp only [Access.index]; omega, ?_⟩
    intro i hi
    cases hi
    omega
  · intro j
    simp only [sget]
    by_cases hj : 0 ≤ j
    · rw [if_pos hj, List.getElem?_set]
      by_cases hji : j = idx
      · subst hji
        rw [if_pos rfl, if_pos rfl, if_pos (by omega)]
      · rw [if_neg (by omega), if_neg hji, if_pos hj]
    · rw [if_neg hj, if_neg (by omega), if_neg hj]

theorem s_read_spec (st : PrintState) {idx : Int} {c : Char} (h : sget st.s idx = some c) :
    s_read st idx = some (c, { st with trace := Access.read idx :: st.trace }) ∧
      TraceExt st.s.length st { st with trace := Access.read idx :: st.trace } := by
  have hb := sget_some_bounds h
  unfold sget at h
  rw [if_pos hb.1] at h
  refine ⟨by rw [s_read, if_pos hb.1, h], ⟨[Access.read idx], rfl, ?_⟩⟩
  intro a ha
  simp only [List.mem_singleton] at ha
  subst ha
  refine ⟨hb.1, by simp only [Access.index]; omega, ?_⟩
  intro i hi
  cases hi

theorem table_read_spec {r w : Nat} {t : digit_blocks_t} (ht : TableOK r w t) (hr : 2 ≤ r)
    {rv col : Nat} (hrv : rv < r ^ w) (hcol : col < w) :
    t.read (rv : Int) (col : Int) = some (digitChar (rv / r ^ (w - 1 - col) % r)) := by
  rw [digit_blocks_t.read, if_pos ⟨by omega, by omega⟩]
  simp only [Int.toNat_ofNat, blocks_read, ht.row_eq rv hrv]
  exact blockText_getElem? r hr w rv hrv col hcol

theorem copy_block_spec {r w : Nat} {t : digit_blocks_t} (ht : TableOK r w t) (hr : 2 ≤ r)
    {rv : Nat} (hrv : rv < r ^ w) (stop : Int) (hstop : -1 ≤ stop) :
    ∀ (fuel : Nat) (position : Int) (st : PrintState), position = stop + fuel → fuel ≤ w →
      position ≤ (st.s.length : Int) - 2 →
      ∃ st1, copy_block t rv stop fuel position st = some (stop, st1) ∧
        st1.s.length = st.s.length ∧ st1.out = st.out ∧ TraceExt st.s.length st st1 ∧
        ∀ j, sget st1.s j =
          if stop < j ∧ j ≤ position then
            some (digitChar (rv / r ^ (stop + w - j).toNat % r))
          else sget st.s j
  | 0, position, st, hpos, _, _ => by
    refine ⟨st, ?_, rfl, rfl, TraceExt.refl _ _, ?_⟩
    · simp only [copy_block]
      rw [if_neg (by omega)]
      simp at hpos
      rw [hpos]
    · intro j
      rw [if_neg (by omega)]
  | fuel + 1, position, st, hpos, hfw, hcap => by
    have hcol : position - stop - 1 = ((fuel : Nat) : Int) := by push_cast at hpos; omega
    have hrd := table_read_spec ht hr hrv (show fuel < w by omega)
    obtain ⟨st1, hw1, hl1, ho1, ht1, hg1⟩ :=
      s_write_spec st (show 0 ≤ position by push_cast at hpos; omega) (by omega)
        (digitChar (rv / r ^ (w - 1 - fuel) % r))
    obtain ⟨st2, hc2, hl2, ho2, ht2, hg2⟩ :=
      copy_block_spec ht hr hrv stop hstop fuel (position - 1) st1
        (by push_cast at hpos; omega) (by omega) (by rw [hl1]; omega)
    refine ⟨st2, ?_, by rw [hl2, hl1], by rw [ho2, ho1], ?_, ?_⟩
    · simp only [copy_block]
      rw [if_pos (by push_cast at hpos; omega), hcol, hrd]
      simp only [hw1, hc2]
    · rw [hl1] at ht2
      exact ht1.trans ht2
    · intro j
      rw [hg2, hg1]
      push_cast at hpos
      by_cases h1 : stop < j ∧ j ≤ position - 1
      · rw [if_pos h1, if_pos (by omega)]
      · rw [if_neg h1]
        by_cases h2 : j = position
        · subst h2
          rw [if_pos rfl, if_pos (by omega)]
          have : (stop + w - j).toNat = w - 1 - fuel := by omega
          rw [this]
        · rw [if_neg h2, if_neg (by omega)]

theorem mod_pow_div_mod (r : Nat) (N w e : Nat) (he : e < w) :
    N % r ^ w / r ^ e % r = N / r ^ e % r := by
  obtain ⟨j, rfl⟩ : ∃ j, w = e + (j + 1) := ⟨w - e - 1, by omega⟩
  rw [pow_add, Nat.mod_mul_right_div_self, pow_succ]
  exact Nat.mod_mod_of_dvd _ (Dvd.intro_left _ rfl)

theorem block_loop_spec {r w : Nat} {t : digit_blocks_t} (ht : TableOK r w t) (hr : 2 ≤ r)
    (hw : 1 ≤ w) :
    ∀ (fuel N : Nat) (position : Int) (st : PrintState), N < (r ^ w) ^ fuel →
      position ≤ (st.s.length : Int) - 2 → -1 ≤ position →
      (∀ k : Nat, 1 ≤ k → (r ^ w) ^ (k - 1) ≤ N → ((k * w : Nat) : Int) ≤ position + 1) →
      ∃ (k : Nat) (st1 : PrintState),
        block_loop t fuel (N : Int) position st = some (position - ((k * w : Nat) : Int), st1) ∧
        N < (r ^ w) ^ k ∧ ((k * w : Nat) : Int) ≤ position + 1 ∧
        st1.s.length = st.s.length ∧ st1.out = st.out ∧ TraceExt st.s.length st st1 ∧
        ∀ j, sget st1.s j =
          if position - ((k * w : Nat) : Int) < j ∧ j ≤ position then
            some (digitChar (N / r ^ (position - j).toNat % r))
          else sget st.s j
  | 0, N, position, st, hN, hcap, hp, hk => by
    simp only [pow_zero, Nat.lt_one_iff] at hN
    subst hN
    refine ⟨0, st, ?_, by simp, by simp at hk ⊢; omega, rfl, rfl, TraceExt.refl _ _, ?_⟩
    · simp [block_loop]
    · intro j
      rw [if_neg (by simp)]
  | fuel + 1, N, position, st, hN, hcap, hp, hk => by
    have hB : 2 ≤ r ^ w := by
      calc 2 ≤ r := hr
        _ = r ^ 1 := (pow_one r).symm
        _ ≤ r ^ w := Nat.pow_le_pow_right (by omega) hw
    by_cases hN0 : N = 0
    · subst hN0
      refine ⟨0, st, ?_, by positivity, by simp at hk ⊢; omega, rfl, rfl,
        TraceExt.refl _ _, ?_⟩
      · simp [block_loop]
      · intro j
        rw [if_neg (by simp)]
    · have hpos : (0 : Int) < (N : Int) := by omega
      have hw1 := hk 1 (by omega) (by simp; omega)
      simp only [Nat.one_mul] at hw1
      have hmod : (N : Int).tmod ((t.block_number : Nat) : Int) = ((N % r ^ w : Nat) : Int) := by
        rw [ht.number_eq, Int.tmod_eq_emod (by omega) (by positivity)]
        norm_cast
      have hdiv : (N : Int).tdiv ((t.block_number : Nat) : Int) = ((N / r ^ w : Nat) : Int) := by
        rw [ht.number_eq, Int.tdiv_eq_ediv (by omega) (by positivity)]
        norm_cast
      have hrv : N % r ^ w < r ^ w := Nat.mod_lt _ (by omega)
      obtain ⟨st1, hc1, hl1, ho1, ht1, hg1⟩ :=
        copy_block_spec ht hr hrv (position - (w : Int)) (by omega) w position st
          (by omega) (Nat.le_refl _) hcap
      have hN' : N / r ^ w < (r ^ w) ^ fuel := by
        apply Nat.div_lt_of_lt_mul
        rw [pow_succ] at hN
        rw [Nat.mul_comm]; exact hN
      have hk' : ∀ k : Nat, 1 ≤ k → (r ^ w) ^ (k - 1) ≤ N / r ^ w →
          ((k * w : Nat) : Int) ≤ position - (w : Int) + 1 := by
        intro k hk1 hle
        have hle' : (r ^ w) ^ (k + 1 - 1) ≤ N := by
          have h1 := (Nat.le_div_iff_mul_le (by omega : 0 < r ^ w)).mp hle
          have h2 : (r ^ w) ^ (k + 1 - 1) = (r ^ w) ^ (k - 1) * r ^ w := by
            rw [← pow_succ]; congr 1; omega
          rw [h2]; exact h1
        have := hk (k + 1) (by omega) hle'
        push_cast at this ⊢
        linarith
      obtain ⟨k, st2, hb2, hNk, hkw, hl2, ho2, ht2, hg2⟩ :=
        block_loop_spec ht hr hw fuel (N / r ^ w) (position - (w : Int)) st1 hN'
          (by rw [hl1]; omega) (by omega) hk'
      have hkw' : (((k + 1) * w : Nat) : Int) = ((k * w : Nat) : Int) + (w : Int) := by
        push_cast; ring
      refine ⟨k + 1, st2, ?_, ?_, by rw [hkw']; omega, by rw [hl2, hl1], by rw [ho2, ho1], ?_, ?_⟩
      · simp only [block_loop]
        rw [if_pos hpos, if_neg (by rw [ht.number_eq]; omega), hmod, ht.width_eq, hc1]
        simp only [hdiv, hb2]
        rw [hkw']
        congr 2
        ring
      · rw [pow_succ]
        exact (Nat.div_lt_iff_lt_mul (by omega : 0 < r ^ w)).mp hNk
      · rw [hl1] at ht2
        exact ht1.trans ht2
      · intro j
        rw [hg2, hg1, hkw']
        by_cases h1 : position - (w : Int) - ((k * w : Nat) : Int) < j ∧ j ≤ position - (w : Int)
        · rw [if_pos h1, if_pos (by omega)]
          have he : (position - j).toNat = w + (position - (w : Int) - j).toNat := by omega
          rw [he, pow_add, Nat.div_div_eq_div_mul]
        · rw [if_neg h1]
          by_cases h2 : position - (w : Int) < j ∧ j ≤ position
          · rw [if_pos h2, if_pos (by omega)]
            have he : (position - (w : Int) + (w : Int) - j).toNat = (position - j).toNat := by
              congr 1; ring
            rw [he, mod_pow_div_mod r N w _ (by omega)]
          · rw [if_neg h2, if_neg (by omega)]

theorem skip_zeros_spec (z : Int) :
    ∀ (fuel : Nat) (position : Int) (st : PrintState) (c : Char), position < z →
      z - position ≤ fuel →
      (∀ j, position < j → j < z → sget st.s j = some (digits 0)) →
      sget st.s z = some c → c ≠ digits 0 →
      ∃ st1, skip_zeros fuel position st = some (z, st1) ∧ st1.s = st.s ∧ st1.out = st.out ∧
        TraceExt st.s.length st st1
  | 0, position, st, c, hlt, hfuel, _, _, _ => by
    simp at hfuel; omega
  | fuel + 1, position, st, c, hlt, hfuel, hz, hc, hne => by
    by_cases h : position + 1 = z
    · obtain ⟨hrd, htr⟩ := s_read_spec st (h ▸ hc : sget st.s (position + 1) = some c)
      refine ⟨{ st with trace := Access.read (position + 1) :: st.trace }, ?_, rfl, rfl, htr⟩
      simp only [skip_zeros, hrd]
      rw [if_neg hne, h]
    · obtain ⟨hrd, htr⟩ := s_read_spec st (hz (position + 1) (by omega) (by omega))
      obtain ⟨st2, hs2, hs, ho, ht2⟩ :=
        skip_zeros_spec z fuel (position + 1)
          { st with trace := Access.read (position + 1) :: st.trace } c (by omega)
          (by push_cast at hfuel; omega) (fun j h1 h2 => hz j (by omega) h2) hc hne
      refine ⟨st2, ?_, hs, ho, htr.trans ht2⟩
      simp only [skip_zeros, hrd, if_true]
      exact hs2

theorem put_cstr_spec :
    ∀ (l : List Char) (fuel : Nat) (position : Int) (st : PrintState), l.length < fuel →
      (∀ i : Nat, i < l.length → sget st.s (position + i) = l[i]?) →
      (∀ c ∈ l, c ≠ Char.ofNat 0) →
      sget st.s (position + l.length) = some (Char.ofNat 0) →
      ∃ st1, put_cstr fuel position st = some st1 ∧ st1.s = st.s ∧ st1.out = st.out ++ l ∧
        TraceExt st.s.length st st1
  | _, 0, _, _, hfuel, _, _, _ => by omega
  | [], fuel + 1, position, st, _, _, _, hend => by
    simp only [List.length_nil, Nat.cast_zero, add_zero] at hend
    obtain ⟨hrd, htr⟩ := s_read_spec st hend
    refine ⟨{ st with trace := Access.read position :: st.trace }, ?_, rfl, by simp, htr⟩
    simp only [put_cstr, hrd, if_true]
  | c :: l, fuel + 1, position, st, hfuel, hl, hne, hend => by
    have h0 := hl 0 (by simp)
    simp only [Nat.cast_zero, add_zero, List.getElem?_cons_zero] at h0
    obtain ⟨hrd, htr⟩ := s_read_spec st h0
    have hc : c ≠ Char.ofNat 0 := hne c (by simp)
    obtain ⟨st2, hp2, hs, ho, ht2⟩ :=
      put_cstr_spec l fuel (position + 1)
        { st with trace := Access.read position :: st.trace, out := st.out ++ [c] }
        (by simp at hfuel; omega)
        (by
          intro i hi
          have := hl (i + 1) (by simp; omega)
          simp only [List.getElem?_cons_succ] at this
          rw [← this]
          congr 1
          push_cast; ring)
        (fun x hx => hne x (by simp [hx]))
        (by
          rw [← hend]
          congr 1
          simp only [List.length_cons]
          push_cast; ring)
    refine ⟨st2, ?_, hs, by rw [ho]; simp, htr.trans ht2⟩
    simp only [put_cstr, hrd]
    rw [if_neg hc]
    exact hp2

theorem digit_count_max_eq (r w : Nat) (hw32 : w + 1 < 2 ^ 32) :
    digit_count_max r w = 1 + ((1 + w + digitsBound r) / w) * w := by
  unfold digit_count_max digitsBound
  rw [Nat.mod_eq_of_lt (by omega)]

theorem digit_count_max_ge (r w : Nat) (hw : 1 ≤ w) (hw32 : w + 1 < 2 ^ 32) :
    digitsBound r + 3 ≤ digit_count_max r w := by
  rw [digit_count_max_eq r w hw32]
  have h1 := Nat.div_add_mod (1 + w + digitsBound r) w
  have h2 := Nat.mod_lt (1 + w + digitsBound r) (show 0 < w by omega)
  have h3 : w * ((1 + w + digitsBound r) / w) = (1 + w + digitsBound r) / w * w :=
    Nat.mul_comm _ _
  omega

theorem blocks_fit (r w : Nat) (hr : 2 ≤ r) (hr36 : r ≤ 36) (hw : 1 ≤ w)
    (hw32 : w + 1 < 2 ^ 32) (N : Nat) (hN : N < 2 ^ 63) (k : Nat) (hk : 1 ≤ k)
    (hle : (r ^ w) ^ (k - 1) ≤ N) : k * w + 1 ≤ digit_count_max r w := by
  rw [digit_count_max_eq r w hw32]
  have h63 := two_pow_63_le r hr hr36
  have hlt : r ^ (w * (k - 1)) < r ^ (digitsBound r + 1) := by
    rw [pow_mul]; omega
  have hexp : w * (k - 1) < digitsBound r + 1 :=
    (Nat.pow_lt_pow_iff_right (by omega)).mp hlt
  have hkw : k * w = w * (k - 1) + w := by
    obtain ⟨k', rfl⟩ : ∃ k', k = k' + 1 := ⟨k - 1, by omega⟩
    simp only [Nat.add_sub_cancel]; ring
  have hq : k ≤ (1 + w + digitsBound r) / w :=
    (Nat.le_div_iff_mul_le (by omega)).mpr (by omega)
  have := Nat.mul_le_mul_right w hq
  omega

theorem digits_length_bound (r : Nat) (hr : 2 ≤ r) (hr36 : r ≤ 36) (N : Nat)
    (hN : N < 2 ^ 63) : (Nat.digits r N).length ≤ digitsBound r + 1 :=
  digits_length_le r hr _ N (by have := two_pow_63_le r hr hr36; omega)

theorem leading_digit (r : Nat) (hr : 2 ≤ r) (N : Nat) (hN : N ≠ 0) :
    N / r ^ ((Nat.digits r N).length - 1) % r ≠ 0 := by
  have hL : (Nat.digits r N).length ≠ 0 := by
    intro h
    exact hN (Nat.digits_eq_nil_iff_eq_zero.mp (List.length_eq_zero.mp h))
  have hlast := Nat.getLast_digit_ne_zero r hN
  rw [← getD_digits r hr]
  have hlt : (Nat.digits r N).length - 1 < (Nat.digits r N).length := by omega
  rw [List.getD_eq_getElem _ _ hlt]
  rw [List.getLast_eq_getElem] at hlast
  exact hlast

theorem high_digit_zero (r : Nat) (hr : 2 ≤ r) (N e : Nat)
    (he : (Nat.digits r N).length ≤ e) : N / r ^ e % r = 0 := by
  rw [← getD_digits r hr, List.getD_eq_default _ _ he]

theorem digitsText_getElem? (r : Nat) (hr : 2 ≤ r) (N i : Nat)
    (hi : i < (Nat.digits r N).length) :
    (digitsText r N)[i]? = some (digitChar (N / r ^ ((Nat.digits r N).length - 1 - i) % r)) := by
  unfold digitsText
  rw [List.getElem?_map, List.getElem?_reverse hi, ← getD_digits r hr]
  have hlt : (Nat.digits r N).length - 1 - i < (Nat.digits r N).length := by omega
  rw [List.getElem?_eq_getElem hlt, List.getD_eq_getElem _ _ hlt]
  rfl

theorem digitsText_length (r N : Nat) : (digitsText r N).length = (Nat.digits r N).length := by
  simp [digitsText]

theorem digitsText_ne_nul (r : Nat) (hr : 2 ≤ r) (hr36 : r ≤ 36) (N : Nat) :
    ∀ c ∈ digitsText r N, c ≠ Char.ofNat 0 := by
  intro c hc
  simp only [digitsText, List.mem_map, List.mem_reverse] at hc
  obtain ⟨d, hd, rfl⟩ := hc
  have := Nat.digits_lt_base (by omega : 1 < r) hd
  exact digitChar_ne_nul d (by omega)

theorem print_one_nonzero {r w : Nat} {t : digit_blocks_t} (ht : TableOK r w t) (hr : 2 ≤ r)
    (hr36 : r ≤ 36) (hw : 1 ≤ w) (hw32 : w + 1 < 2 ^ 32) (st : PrintState)
    (hlen : st.s.length = digit_count_max r w)
    (hterm : sget st.s ((digit_count_max r w : Int) - 1) = some (Char.ofNat 0))
    (sign : Char) (hsign : sign ≠ Char.ofNat 0) (N : Nat) (hN0 : N ≠ 0) (hN : N < 2 ^ 63) :
    ∃ (p1 p2 : Int) (st1 st2 st3 st4 : PrintState),
      block_loop t (8 * sizeof_integer) (N : Int) ((digit_count_max r w : Int) - 2) st
        = some (p1, st1) ∧
      skip_zeros (digit_count_max r w + 1) p1 st1 = some (p2, st2) ∧
      s_write st2 (p2 - 1) sign = some st3 ∧
      put_cstr (digit_count_max r w + 1) (p2 - 1) st3 = some st4 ∧
      st4.s.length = digit_count_max r w ∧
      sget st4.s ((digit_count_max r w : Int) - 1) = some (Char.ofNat 0) ∧
      st4.out = st.out ++ (sign :: digitsText r N) ∧
      TraceExt (digit_count_max r w) st st4 := by
  have hD := digit_count_max_ge r w hw hw32
  have hL := digits_length_bound r hr hr36 N hN
  have hLpos : 1 ≤ (Nat.digits r N).length := by
    rcases Nat.eq_zero_or_pos (Nat.digits r N).length with h | h
    · exact absurd (Nat.digits_eq_nil_iff_eq_zero.mp (List.length_eq_zero.mp h)) hN0
    · exact h
  have hB : 2 ≤ r ^ w := by
    calc 2 ≤ r := hr
      _ = r ^ 1 := (pow_one r).symm
      _ ≤ r ^ w := Nat.pow_le_pow_right (by omega) hw
  -- the block loop
  have hfuel : N < (r ^ w) ^ (8 * sizeof_integer) := by
    have h1 : 2 ^ 64 ≤ (r ^ w) ^ 64 := Nat.pow_le_pow_left hB 64
    have h2 : 8 * sizeof_integer = 64 := rfl
    rw [h2]; omega
  obtain ⟨k, st1, hb1, hNk, hkw, hl1, ho1, ht1, hg1⟩ :=
    block_loop_spec ht hr hw (8 * sizeof_integer) N ((digit_count_max r w : Int) - 2) st hfuel
      (by rw [hlen]) (by omega)
      (by
        intro k hk hle
        have := blocks_fit r w hr hr36 hw hw32 N hN k hk hle
        omega)
  rw [hlen] at ht1
  have hLk : (Nat.digits r N).length ≤ k * w := by
    apply digits_length_le r hr
    rw [Nat.mul_comm, pow_mul]; exact hNk
  -- the scan over leading zeros stops at the first significant digit
  have hz : ∀ j, (digit_count_max r w : Int) - 2 - ((k * w : Nat) : Int) < j →
      j < (digit_count_max r w : Int) - 1 - ((Nat.digits r N).length : Int) →
      sget st1.s j = some (digits 0) := by
    intro j h1 h2
    rw [hg1, if_pos ⟨h1, by omega⟩, high_digit_zero r hr N _ (by omega)]
    rfl
  have hzc : sget st1.s ((digit_count_max r w : Int) - 1 - ((Nat.digits r N).length : Int))
      = some (digitChar (N / r ^ ((Nat.digits r N).length - 1) % r)) := by
    rw [hg1, if_pos ⟨by omega, by omega⟩]
    have : ((digit_count_max r w : Int) - 2
        - ((digit_count_max r w : Int) - 1 - ((Nat.digits r N).length : Int))).toNat
        = (Nat.digits r N).length - 1 := by omega
    rw [this]
  have hlead : digitChar (N / r ^ ((Nat.digits r N).length - 1) % r) ≠ digits 0 := by
    have hlt : N / r ^ ((Nat.digits r N).length - 1) % r < r := Nat.mod_lt _ (by omega)
    intro h
    exact leading_digit r hr N hN0 ((digitChar_eq_zero_iff _ (by omega)).mp h)
  obtain ⟨st2, hs2, hs2s, ho2, ht2⟩ :=
    skip_zeros_spec ((digit_count_max r w : Int) - 1 - ((Nat.digits r N).length : Int))
      (digit_count_max r w + 1) _ st1 _ (by omega) (by push_cast; omega) hz hzc hlead
  rw [hl1, hlen] at ht2
  -- the sign
  have hl2 : st2.s.length = digit_count_max r w := by rw [hs2s, hl1, hlen]
  obtain ⟨st3, hw3, hl3, ho3, ht3, hg3⟩ :=
    s_write_spec st2
      (show 0 ≤ (digit_count_max r w : Int) - 1 - ((Nat.digits r N).length : Int) - 1 by omega)
      (by rw [hl2]; omega) sign
  rw [hl2] at ht3 hl3
  -- the text
  have hget : ∀ i : Nat, i < (sign :: digitsText r N).length →
      sget st3.s ((digit_count_max r w : Int) - 1 - ((Nat.digits r N).length : Int) - 1 + i)
        = (sign :: digitsText r N)[i]? := by
    intro i hi
    rw [List.length_cons, digitsText_length] at hi
    rw [hg3]
    rcases i with _ | i
    · rw [if_pos (by simp), List.getElem?_cons_zero]
    · rw [if_neg (by push_cast; omega), hs2s, hg1, if_pos ⟨by push_cast; omega, by push_cast; omega⟩]
      rw [List.getElem?_cons_succ, digitsText_getElem? r hr N i (by omega)]
      have : ((digit_count_max r w : Int) - 2
          - ((digit_count_max r w : Int) - 1 - ((Nat.digits r N).length : Int) - 1
              + ((i + 1 : Nat) : Int))).toNat
          = (Nat.digits r N).length - 1 - i := by push_cast; omega
      rw [this]
  have hne : ∀ c ∈ sign :: digitsText r N, c ≠ Char.ofNat 0 := by
    intro c hc
    rcases List.mem_cons.mp hc with h | h
    · rw [h]; exact hsign
    · exact digitsText_ne_nul r hr hr36 N c h
  have hend3 : sget st3.s ((digit_count_max r w : Int) - 1) = some (Char.ofNat 0) := by
    rw [hg3, if_neg (by omega), hs2s, hg1, if_neg (by omega)]
    exact hterm
  obtain ⟨st4, hp4, hs4, ho4, ht4⟩ :=
    put_cstr_spec (sign :: digitsText r N) (digit_count_max r w + 1)
      ((digit_count_max r w : Int) - 1 - ((Nat.digits r N).length : Int) - 1) st3
      (by rw [List.length_cons, digitsText_length]; omega) hget hne
      (by
        rw [← hend3]
        congr 1
        rw [List.length_cons, digitsText_length]
        push_cast; ring)
  rw [hl3] at ht4
  refine ⟨_, _, st1, st2, st3, st4, hb1, hs2, hw3, hp4, by rw [hs4, hl3], by rw [hs4]; exact hend3,
    by rw [ho4, ho3, ho2, ho1], ((ht1.trans ht2).trans ht3).trans ht4⟩

theorem wrap64_of_range (x : Int) (h1 : - 2 ^ 63 ≤ x) (h2 : x < 2 ^ 63) : wrap64 x = x := by
  unfold wrap64
  omega

theorem print_one_spec {r w : Nat} {t : digit_blocks_t} (ht : TableOK r w t) (hr : 2 ≤ r)
    (hr36 : r ≤ 36) (hw : 1 ≤ w) (hw32 : w + 1 < 2 ^ 32) (st : PrintState)
    (hlen : st.s.length = digit_count_max r w)
    (hterm : sget st.s ((digit_count_max r w : Int) - 1) = some (Char.ofNat 0))
    (n : Int) (hlo : - 2 ^ 63 < n) (hhi : n < 2 ^ 63) :
    ∃ st1, print_one t (digit_count_max r w) st n = some st1 ∧
      st1.s.length = digit_count_max r w ∧
      sget st1.s ((digit_count_max r w : Int) - 1) = some (Char.ofNat 0) ∧
      st1.out = st.out ++ (text r n ++ [' ']) ∧
      TraceExt (digit_count_max r w) st st1 := by
  by_cases hn0 : n = 0
  · subst hn0
    refine ⟨{ st with out := st.out ++ [digits 0, ' '] }, ?_, hlen, hterm, ?_, ⟨[], rfl, ?_⟩⟩
    · simp [print_one]
    · simp only [text, if_true]
      rfl
    · intro a ha; simp at ha
  · have hsign : (if n < 0 then '-' else '+') ≠ Char.ofNat 0 := by
      split <;> decide
    have hn1 : (if n < 0 then wrap64 (-n) else n) = ((n.natAbs : Nat) : Int) := by
      split
      · rw [wrap64_of_range _ (by omega) (by omega)]; omega
      · omega
    obtain ⟨p1, p2, st1, st2, st3, st4, hb, hs, hwr, hp, hl4, hend4, ho4, ht4⟩ :=
      print_one_nonzero ht hr hr36 hw hw32 st hlen hterm (if n < 0 then '-' else '+') hsign
        n.natAbs (by omega) (by omega)
    refine ⟨{ st4 with out := st4.out ++ [' '] }, ?_, hl4, hend4, ?_, ?_⟩
    · simp only [print_one, if_neg hn0, hn1, hb, hs, hwr, hp]
    · simp only [ho4, text, if_neg hn0]
      simp
    · obtain ⟨new, hnew, hgood⟩ := ht4
      exact ⟨new, hnew, hgood⟩

theorem print_init_spec (dcm : Nat) (hd : 1 ≤ dcm) (uninit : Nat → Char) :
    ∃ st, print_init dcm uninit = some st ∧ st.s.length = dcm ∧
      sget st.s ((dcm : Int) - 1) = some (Char.ofNat 0) ∧ st.out = [] ∧
      st.trace = [Access.write ((dcm : Int) - 1)] := by
  refine ⟨{ s := ((List.range dcm).map uninit).set ((dcm : Int) - 1).toNat (Char.ofNat 0),
            out := [], trace := [Access.write ((dcm : Int) - 1)] }, ?_, by simp, ?_, rfl, rfl⟩
  · simp only [print_init, s_write]
    rw [if_pos (by simp; omega)]
  · simp only [sget]
    rw [if_pos (by omega), List.getElem?_set, if_pos rfl, if_pos (by simp; omega)]

theorem print_loop_spec {r w : Nat} {t : digit_blocks_t} (ht : TableOK r w t) (hr : 2 ≤ r)
    (hr36 : r ≤ 36) (hw : 1 ≤ w) (hw32 : w + 1 < 2 ^ 32) :
    ∀ (integers : List Int) (st : PrintState),
      (∀ n ∈ integers, - 2 ^ 63 < n ∧ n < 2 ^ 63) →
      st.s.length = digit_count_max r w →
      sget st.s ((digit_count_max r w : Int) - 1) = some (Char.ofNat 0) →
      ∃ st1, print_loop t (digit_count_max r w) integers st = some st1 ∧
        st1.out = st.out ++ printed r integers ∧ TraceExt (digit_count_max r w) st st1
  | [], st, _, _, _ => ⟨st, rfl, by simp [printed], TraceExt.refl _ _⟩
  | n :: rest, st, hrange, hlen, hterm => by
    obtain ⟨st1, h1, hl1, hterm1, ho1, ht1⟩ :=
      print_one_spec ht hr hr36 hw hw32 st hlen hterm n (hrange n (by simp)).1
        (hrange n (by simp)).2
    obtain ⟨st2, h2, ho2, ht2⟩ :=
      print_loop_spec ht hr hr36 hw hw32 rest st1 (fun m hm => hrange m (by simp [hm])) hl1
        hterm1
    refine ⟨st2, ?_, ?_, ht1.trans ht2⟩
    · simp only [print_loop, h1, h2]
    · rw [ho2, ho1]
      simp [printed]

theorem width_lt (r w : Nat) (hr : 2 ≤ r) (hrep : r ^ w ≤ 2 ^ 31 - 1) : w < 31 := by
  by_contra h
  have h1 : 2 ^ 31 ≤ 2 ^ w := Nat.pow_le_pow_right (by omega) (by omega)
  have h2 : 2 ^ w ≤ r ^ w := Nat.pow_le_pow_left hr w
  omega

theorem digit_count_max_le (r w : Nat) (hr : 2 ≤ r) (hr36 : r ≤ 36) (hw32 : w + 1 < 2 ^ 32) :
    digit_count_max r w ≤ 66 + w := by
  rw [digit_count_max_eq r w hw32]
  have h1 : digitsBound r ≤ 64 := by
    interval_cases r <;> decide
  have h2 := Nat.div_mul_le_self (1 + w + digitsBound r) w
  omega

theorem print_state_spec (r w : Nat) (hr : 2 ≤ r) (hr36 : r ≤ 36) (hw : 1 ≤ w)
    (hrep : r ^ w ≤ 2 ^ 31 - 1) (integers : List Int)
    (hrange : ∀ n ∈ integers, - 2 ^ 63 < n ∧ n < 2 ^ 63) (uninit : Nat → Char) :
    ∃ st, integer_printer_t.print_state r w integers uninit = some st ∧
      st.out = printed r integers ∧
      InitThenGood (digit_count_max r w) st.trace := by
  have hw31 := width_lt r w hr hrep
  have hw32 : w + 1 < 2 ^ 32 := by omega
  obtain ⟨t, hc, ht⟩ := construct_spec r w hr hr36 hrep
  have hge := digit_count_max_ge r w hw hw32
  have hle := digit_count_max_le r w hr hr36 hw32
  obtain ⟨st0, hi0, hl0, hterm0, ho0, htr0⟩ :=
    print_init_spec (digit_count_max r w) (by omega) uninit
  obtain ⟨st1, h1, ho1, new, hnew, hgood⟩ :=
    print_loop_spec ht hr hr36 hw hw32 integers st0 hrange hl0 hterm0
  refine ⟨st1, ?_, by rw [ho1, ho0]; simp, ⟨new, by rw [hnew, htr0], hgood⟩⟩
  simp only [integer_printer_t.print_state, hc]
  rw [if_pos (by omega)]
  simp only [hi0, h1]

theorem print_spec (r w : Nat) (hr : 2 ≤ r) (hr36 : r ≤ 36) (hw : 1 ≤ w)
    (hrep : r ^ w ≤ 2 ^ 31 - 1) (integers : List Int)
    (hrange : ∀ n ∈ integers, - 2 ^ 63 < n ∧ n < 2 ^ 63) (uninit : Nat → Char) :
    integer_printer_t.print r w integers uninit = some (printed r integers) := by
  obtain ⟨st, hs, ho, _⟩ := print_state_spec r w hr hr36 hw hrep integers hrange uninit
  simp only [integer_printer_t.print, hs, Option.map_some', ho]

theorem digitValue_digitChar (v : Nat) (h : v < 36) : digitValue (digitChar v) = some v := by
  interval_cases v <;> decide

theorem digitChar_not_sign (v : Nat) (h : v < 36) :
    digitChar v ≠ '-' ∧ digitChar v ≠ '+' := by
  interval_cases v <;> decide

theorem parseDigits_map (r : Nat) (hr36 : r ≤ 36) : ∀ (l : List Nat) (acc : Nat),
    (∀ d ∈ l, d < r) →
    parseDigits r (l.map digitChar) acc = some (acc * r ^ l.length + Nat.ofDigits r l.reverse)
  | [], acc, _ => by simp [parseDigits]
  | d :: l, acc, h => by
    have hd : d < r := h d (by simp)
    simp only [List.map_cons, parseDigits, digitValue_digitChar d (by omega)]
    rw [if_pos hd, parseDigits_map r hr36 l _ (fun x hx => h x (by simp [hx]))]
    simp only [List.reverse_cons, Nat.ofDigits_append, Nat.ofDigits_singleton,
      List.length_reverse, List.length_cons]
    congr 1
    ring

theorem parseDigits_digitsText (r : Nat) (hr : 2 ≤ r) (hr36 : r ≤ 36) (N : Nat) :
    parseDigits r (digitsText r N) 0 = some N := by
  unfold digitsText
  rw [parseDigits_map r hr36 _ 0 (by
    intro d hd
    exact Nat.digits_lt_base (by omega) (List.mem_reverse.mp hd))]
  simp [Nat.ofDigits_digits]

theorem digitsText_ne_nil (r N : Nat) (hN : N ≠ 0) : digitsText r N ≠ [] := by
  unfold digitsText
  intro h
  have h1 := congrArg List.length h
  simp only [List.length_map, List.length_reverse, List.length_nil] at h1
  exact hN (Nat.digits_eq_nil_iff_eq_zero.mp (List.length_eq_zero.mp h1))

theorem parseInteger_text (r : Nat) (hr : 2 ≤ r) (hr36 : r ≤ 36) (n : Int) :
    parseInteger r (text r n) = some n := by
  unfold text
  by_cases h0 : n = 0
  · subst h0
    rw [if_pos rfl]
    have h1 : parseDigits r ['0'] 0 = some 0 := by
      have : digitValue '0' = some 0 := by decide
      simp only [parseDigits, this]
      rw [if_pos (by omega)]
      simp
    have hm : ('0' : Char) ≠ '-' := by decide
    have hp : ('0' : Char) ≠ '+' := by decide
    simp only [parseInteger, if_neg hm, if_neg hp, h1]
    rfl
  · rw [if_neg h0]
    have hne := digitsText_ne_nil r n.natAbs (by omega)
    have hpd := parseDigits_digitsText r hr hr36 n.natAbs
    by_cases hneg : n < 0
    · simp only [if_pos hneg, parseInteger, if_true, if_neg hne, hpd, Option.map_some']
      congr 1
      omega
    · have hpm : ('+' : Char) ≠ '-' := by decide
      simp only [if_neg hneg, parseInteger, if_neg hpm, if_true, if_neg hne, hpd,
        Option.map_some']
      congr 1
      omega

theorem text_no_space (r : Nat) (hr : 2 ≤ r) (hr36 : r ≤ 36) (n : Int) :
    ∀ c ∈ text r n, c ≠ ' ' := by
  intro c hc
  unfold text at hc
  split at hc
  · simp only [List.mem_singleton] at hc
    rw [hc]; decide
  · rcases List.mem_cons.mp hc with h | h
    · rw [h]; split <;> decide
    · simp only [digitsText, List.mem_map, List.mem_reverse] at h
      obtain ⟨d, hd, rfl⟩ := h
      have := Nat.digits_lt_base (by omega : 1 < r) hd
      exact digitChar_ne_space d (by omega)

theorem takeWhile_before_space : ∀ (l rest : List Char), (∀ c ∈ l, c ≠ ' ') →
    (l ++ ' ' :: rest).takeWhile (fun c => decide (c ≠ ' ')) = l
  | [], rest, _ => by simp
  | c :: l, rest, h => by
    have hc : c ≠ ' ' := h c (by simp)
    simp only [List.cons_append, List.takeWhile_cons]
    rw [if_pos (by simpa using hc),
      takeWhile_before_space l rest (fun x hx => h x (by simp [hx]))]

theorem blocks_write_inv {b b1 : BlockArray} {i p : Nat} {c : Char}
    (h : blocks_write b i p c = some b1) : i < b.length ∧ b1.length = b.length := by
  unfold blocks_write at h
  cases hrow : b[i]? with
  | none => rw [hrow] at h; cases h
  | some row =>
    rw [hrow] at h
    simp only at h
    split at h
    · cases h
      exact ⟨(List.getElem?_eq_some_iff.mp hrow).1, by simp⟩
    · cases h

theorem copy_previous_inv (i : Nat) : ∀ (count j : Nat) (b b1 : BlockArray),
    copy_previous i count j b = some b1 → b1.length = b.length
  | 0, j, b, b1, h => by
    simp only [copy_previous] at h
    cases h; rfl
  | count + 1, j, b, b1, h => by
    simp only [copy_previous] at h
    cases hrd : blocks_read b ((i + (2 ^ 32 - 1)) % 2 ^ 32) j with
    | none => rw [hrd] at h; cases h
    | some c =>
      rw [hrd] at h
      simp only at h
      cases hwr : blocks_write b i j c with
      | none => rw [hwr] at h; cases h
      | some b2 =>
        rw [hwr] at h
        simp only at h
        rw [copy_previous_inv i count (j + 1) b2 b1 h, (blocks_write_inv hwr).2]

theorem filling_while_succ {r k p : Nat} {inner : FillState → Option FillState}
    (hinner : FillSucc r k inner) (i0 : Nat) :
    ∀ (fuel d : Nat) (st st1 : FillState), st.blocks.length < 2 ^ 32 → d + 1 ≤ r →
      st.i = i0 + (d + 1) * r ^ k → st.i ≤ st.blocks.length →
      filling_while r p inner fuel d st = some st1 →
      st1.i = i0 + r * r ^ k ∧ st1.i ≤ st.blocks.length ∧
        st1.blocks.length = st.blocks.length
  | 0, d, st, st1, _, _, _, _, h => by
    simp only [filling_while] at h
    cases h
  | fuel + 1, d, st, st1, hlen, hd, hi, hile, h => by
    simp only [filling_while] at h
    by_cases hlt : d + 1 < r
    · rw [if_pos hlt] at h
      cases hcp : copy_previous st.i p 0 st.blocks with
      | none => rw [hcp] at h; cases h
      | some b1 =>
        rw [hcp] at h
        simp only at h
        cases hwr : blocks_write b1 st.i p (digits (d + 1)) with
        | none => rw [hwr] at h; cases h
        | some b2 =>
          rw [hwr] at h
          simp only at h
          cases hin : inner { st with blocks := b2 } with
          | none => rw [hin] at h; cases h
          | some st2 =>
            rw [hin] at h
            simp only at h
            have hl1 := copy_previous_inv st.i p 0 st.blocks b1 hcp
            obtain ⟨hib, hl2⟩ := blocks_write_inv hwr
            obtain ⟨hi2, hle2, hlen2⟩ :=
              hinner { st with blocks := b2 } st2 (fun _ => by simp only; omega)
                (by simp only; omega) hin
            simp only at hi2 hle2 hlen2
            have hi2' : st2.i = i0 + (d + 1 + 1) * r ^ k := by
              rw [hi2, hi]; ring
            obtain ⟨hres, hle, hlenr⟩ :=
              filling_while_succ hinner i0 fuel (d + 1) st2 st1 (by omega) (by omega) hi2'
                (by omega) h
            exact ⟨hres, by omega, by omega⟩
    · rw [if_neg hlt] at h
      cases h
      have hd' : d + 1 = r := by omega
      exact ⟨by rw [hi, hd'], hile, rfl⟩

theorem filling_succ (r : Nat) : ∀ (k p : Nat), FillSucc r k (filling r k p)
  | 0, p => by
    intro st st1 hk hlen h
    simp only [filling] at h
    cases h
    have := hk rfl
    simp only [pow_zero]
    refine ⟨by omega, by omega, trivial⟩
  | k + 1, p => by
    intro st st1 _ hlen h
    simp only [filling] at h
    cases hwr : blocks_write st.blocks st.i p (digits 0) with
    | none => rw [hwr] at h; cases h
    | some b1 =>
      rw [hwr] at h
      simp only at h
      cases hin : filling r k (p + 1) { st with blocks := b1 } with
      | none => rw [hin] at h; cases h
      | some st2 =>
        rw [hin] at h
        simp only at h
        obtain ⟨hib, hl1⟩ := blocks_write_inv hwr
        obtain ⟨hi2, hle2, hlen2⟩ :=
          filling_succ r k (p + 1) { st with blocks := b1 } st2 (fun _ => by simp only; omega)
            (by simp only; omega) hin
        simp only at hi2 hle2 hlen2
        by_cases hr : 1 ≤ r
        · obtain ⟨hres, hle, hlenr⟩ :=
            filling_while_succ (filling_succ r k (p + 1)) st.i r 0 st2 st1 (by omega) hr
              (by rw [hi2]; ring) (by omega) h
          refine ⟨by rw [hres, pow_succ]; ring, ?_, by omega⟩
          have : st.i + r ^ (k + 1) = st.i + r * r ^ k := by rw [pow_succ]; ring
          omega
        · -- `base = 0`: the loop body never runs
          have hr0 : r = 0 := by omega
          subst hr0
          rcases Nat.eq_zero_or_pos k with hk0 | hkpos
          · subst hk0
            simp only [filling_while] at h
            simp at h
          · simp only [filling_while] at h
            simp at h

theorem construct_succ (r w : Nat) (t : digit_blocks_t)
    (h : digit_blocks_t.construct w r = some t) :
    1 < r ∧ r < 37 ∧ t.block_number = r ^ w ∧ r ^ w ≤ 2 ^ 31 - 1 ∧ pow r w = r ^ w := by
  unfold digit_blocks_t.construct at h
  cases hbn : NumberToDigits.block_number w r with
  | none => rw [hbn] at h; cases h
  | some bn =>
    rw [hbn] at h
    simp only at h
    unfold NumberToDigits.block_number at hbn
    split at hbn
    · rename_i hrange
      split at hbn
      · rename_i hfit
        cases hbn
        cases hf : filling r w 0
            { blocks := List.replicate (pow r w) (List.replicate w (Char.ofNat 0)), i := 0 } with
        | none => rw [hf] at h; cases h
        | some st =>
          rw [hf] at h
          cases h
          simp only
          have hpow := pow_eq r w
          have hmod : r ^ w % 2 ^ 32 ≤ r ^ w := Nat.mod_le _ _
          rcases Nat.eq_zero_or_pos w with hw0 | hwpos
          · subst hw0
            simp only [pow_zero] at hpow ⊢
            have : pow r 0 = 1 := by rw [hpow]; norm_num
            exact ⟨hrange.1, hrange.2, this, by norm_num, this⟩
          · obtain ⟨_, hle, _⟩ :=
              filling_succ r w 0 _ st (fun h0 => by omega) (by simp; omega) hf
            simp only [List.length_replicate, Nat.zero_add] at hle
            have heq : pow r w = r ^ w := by omega
            exact ⟨hrange.1, hrange.2, heq, by omega, heq⟩
      · cases hbn
    · cases hbn

/-! ## Lemmas for the minimum value, the loop count, the fill log and `test_range` -/

theorem block_loop_nonpos (t : digit_blocks_t) (fuel : Nat) (n position : Int)
    (st : PrintState) (hn : n ≤ 0) : block_loop t fuel n position st = some (position, st) := by
  cases fuel with
  | zero => simp only [block_loop]; rw [if_neg (by omega)]
  | succ fuel => simp only [block_loop]; rw [if_neg (by omega)]

theorem wrap64_min : wrap64 (- (- 2 ^ 63)) = - 2 ^ 63 := by
  decide

theorem print_one_min (r w : Nat) (t : digit_blocks_t) (hw : 1 ≤ w) (hw32 : w + 1 < 2 ^ 32)
    (st : PrintState) (hlen : st.s.length = digit_count_max r w)
    (hterm : sget st.s ((digit_count_max r w : Int) - 1) = some (Char.ofNat 0)) :
    ∃ st1, print_one t (digit_count_max r w) st (- 2 ^ 63) = some st1 ∧
      st1.out = st.out ++ ['-', ' '] := by
  have hD := digit_count_max_ge r w hw hw32
  have hne : Char.ofNat 0 ≠ digits 0 := by decide
  obtain ⟨st2, hs2, hs2s, ho2, _⟩ :=
    skip_zeros_spec ((digit_count_max r w : Int) - 1) (digit_count_max r w + 1)
      ((digit_count_max r w : Int) - 2) st (Char.ofNat 0) (by omega) (by push_cast; omega)
      (fun j h1 h2 => by omega) hterm hne
  have hl2 : st2.s.length = digit_count_max r w := by rw [hs2s, hlen]
  obtain ⟨st3, hw3, hl3, ho3, _, hg3⟩ :=
    s_write_spec st2 (show 0 ≤ (digit_count_max r w : Int) - 1 - 1 by omega)
      (by rw [hl2]; omega) '-'
  obtain ⟨st4, hp4, _, ho4, _⟩ :=
    put_cstr_spec ['-'] (digit_count_max r w + 1) ((digit_count_max r w : Int) - 1 - 1) st3
      (by simp only [List.length_singleton]; omega)
      (by
        intro i hi
        simp only [List.length_singleton] at hi
        have : i = 0 := by omega
        subst this
        rw [hg3, if_pos (by simp)]
        rfl)
      (by
        intro c hc
        simp only [List.mem_singleton] at hc
        subst hc
        decide)
      (by
        have hidx : (digit_count_max r w : Int) - 1 - 1 + ((['-'] : List Char).length : Nat)
            = (digit_count_max r w : Int) - 1 := by
          simp only [List.length_singleton, Nat.cast_one]; ring
        rw [hidx, hg3, if_neg (by omega), hs2s]
        exact hterm)
  refine ⟨{ st4 with out := st4.out ++ [' '] }, ?_, ?_⟩
  · have hn0 : (- 2 ^ 63 : Int) ≠ 0 := by decide
    have hneg : (- 2 ^ 63 : Int) < 0 := by decide
    simp only [print_one, if_neg hn0, if_pos hneg, wrap64_min,
      block_loop_nonpos t _ _ _ _ (le_of_lt hneg), hs2, hw3, hp4]
  · simp only [ho4, ho3, ho2]
    simp

theorem print_min_value (r w : Nat) (hr : 2 ≤ r) (hr36 : r ≤ 36) (hw : 1 ≤ w)
    (hrep : r ^ w ≤ 2 ^ 31 - 1) (uninit : Nat → Char) :
    integer_printer_t.print r w [- 2 ^ 63] uninit = some ['-', ' '] := by
  have hw31 := width_lt r w hr hrep
  have hw32 : w + 1 < 2 ^ 32 := by omega
  obtain ⟨t, hc, _⟩ := construct_spec r w hr hr36 hrep
  have hge := digit_count_max_ge r w hw hw32
  have hle := digit_count_max_le r w hr hr36 hw32
  obtain ⟨st0, hi0, hl0, hterm0, ho0, _⟩ :=
    print_init_spec (digit_count_max r w) (by omega) uninit
  obtain ⟨st1, h1, ho1⟩ := print_one_min r w t hw hw32 st0 hl0 hterm0
  simp only [integer_printer_t.print, integer_printer_t.print_state, hc]
  rw [if_pos (by omega)]
  simp only [hi0, print_loop, h1, Option.map_some', ho1, ho0]
  rfl

theorem storesDown_length (count : Nat) : ∀ position : Int,
    (storesDown position count).length = count := by
  induction count with
  | zero => intro position; rfl
  | succ count ih => intro position; simp [storesDown, ih]

theorem storesDown_add (b : Nat) : ∀ (a : Nat) (position : Int),
    storesDown position (b + a) = storesDown (position - a) b ++ storesDown position a
  | 0, position => by simp [storesDown]
  | a + 1, position => by
    have h : b + (a + 1) = (b + a) + 1 := by omega
    rw [h, storesDown, storesDown_add b a (position - 1), storesDown, List.append_assoc]
    congr 2
    push_cast; ring

theorem mem_storesDown (count : Nat) : ∀ (position : Int) (a : Access),
    a ∈ storesDown position count →
      ∃ j : Nat, j < count ∧ a = Access.write (position - j) := by
  induction count with
  | zero => intro position a h; simp [storesDown] at h
  | succ count ih =>
    intro position a h
    simp only [storesDown, List.mem_append, List.mem_singleton] at h
    rcases h with h | h
    · obtain ⟨j, hj, rfl⟩ := ih (position - 1) a h
      exact ⟨j + 1, by omega, by push_cast; congr 1; ring⟩
    · exact ⟨0, by omega, by simpa using h⟩

theorem s_write_inv {st st1 : PrintState} {idx : Int} {c : Char}
    (h : s_write st idx c = some st1) : st1.trace = Access.write idx :: st.trace := by
  unfold s_write at h
  split at h
  · cases h; rfl
  · cases h

theorem copy_block_inv (t : digit_blocks_t) (rv stop : Int) :
    ∀ (fuel : Nat) (position : Int) (st : PrintState) (p : Int) (st1 : PrintState),
      copy_block t rv stop fuel position st = some (p, st1) → position = stop + fuel →
      p = stop ∧ st1.trace = storesDown position fuel ++ st.trace
  | 0, position, st, p, st1, h, hpos => by
    simp only [copy_block] at h
    rw [if_neg (by simp at hpos; omega)] at h
    cases h
    exact ⟨by simpa using hpos, rfl⟩
  | fuel + 1, position, st, p, st1, h, hpos => by
    simp only [copy_block] at h
    rw [if_pos (by push_cast at hpos; omega)] at h
    cases hrd : t.read rv (position - stop - 1) with
    | none => rw [hrd] at h; cases h
    | some c =>
      rw [hrd] at h
      simp only at h
      cases hwr : s_write st position c with
      | none => rw [hwr] at h; cases h
      | some st2 =>
        rw [hwr] at h
        simp only at h
        obtain ⟨hp, htr⟩ :=
          copy_block_inv t rv stop fuel (position - 1) st2 p st1 h
            (by push_cast at hpos; omega)
        refine ⟨hp, ?_⟩
        rw [htr, s_write_inv hwr, storesDown, List.append_assoc]
        rfl

theorem block_loop_inv {r w : Nat} (t : digit_blocks_t) (hbn : t.block_number = r ^ w)
    (hdp : t.digits_per_block = w) (hB : 2 ≤ r ^ w) :
    ∀ (fuel N : Nat) (position : Int) (st : PrintState) (p : Int) (st1 : PrintState),
      block_loop t fuel (N : Int) position st = some (p, st1) →
      ∃ k : Nat, p = position - ((k * w : Nat) : Int) ∧
        (N = 0 → k = 0) ∧ (N ≠ 0 → 1 ≤ k ∧ (r ^ w) ^ (k - 1) ≤ N) ∧ N < (r ^ w) ^ k ∧
        st1.trace = storesDown position (k * w) ++ st.trace
  | 0, N, position, st, p, st1, h => by
    simp only [block_loop] at h
    by_cases hN : (N : Int) > 0
    · rw [if_pos hN] at h; cases h
    · rw [if_neg hN] at h
      cases h
      have hN0 : N = 0 := by omega
      subst hN0
      exact ⟨0, by simp, fun _ => rfl, fun h => absurd rfl h, by simp, by simp [storesDown]⟩
  | fuel + 1, N, position, st, p, st1, h => by
    simp only [block_loop] at h
    by_cases hN : (N : Int) > 0
    · rw [if_pos hN, if_neg (by rw [hbn]; omega), hdp] at h
      cases hcb : copy_block t ((N : Int).tmod ((t.block_number : Nat) : Int))
          (position - (w : Int)) w position st with
      | none => rw [hcb] at h; cases h
      | some res =>
        obtain ⟨p1, st2⟩ := res
        rw [hcb] at h
        simp only at h
        obtain ⟨hp1, htr1⟩ := copy_block_inv t _ _ w position st p1 st2 hcb (by omega)
        have hdiv : (N : Int).tdiv ((t.block_number : Nat) : Int)
            = ((N / r ^ w : Nat) : Int) := by
          rw [hbn, Int.tdiv_eq_ediv (by omega) (by positivity)]
          norm_cast
        rw [hdiv] at h
        obtain ⟨k, hp, hzero, hmin, hlt, htr⟩ :=
          block_loop_inv t hbn hdp hB fuel (N / r ^ w) p1 st2 p st1 h
        have hkw : (((k + 1) * w : Nat) : Int) = ((k * w : Nat) : Int) + (w : Int) := by
          push_cast; ring
        refine ⟨k + 1, by rw [hp, hp1, hkw]; ring, fun h0 => by omega,
          fun _ => ⟨by omega, ?_⟩, ?_, ?_⟩
        · simp only [Nat.add_sub_cancel]
          by_cases hq : N / r ^ w = 0
          · have : k = 0 := hzero hq
            subst this
            simp only [pow_zero]
            omega
          · obtain ⟨hk1, hle⟩ := hmin hq
            have h1 := (Nat.le_div_iff_mul_le (by omega : 0 < r ^ w)).mp hle
            have h2 : (r ^ w) ^ k = (r ^ w) ^ (k - 1) * r ^ w := by
              rw [← pow_succ]; congr 1; omega
            rw [h2]; exact h1
        · rw [pow_succ]
          exact (Nat.div_lt_iff_lt_mul (by omega : 0 < r ^ w)).mp hlt
        · rw [htr, htr1, hp1, ← List.append_assoc]
          congr 1
          have : (k + 1) * w = k * w + w := by ring
          rw [this, storesDown_add]
    · rw [if_neg hN] at h
      cases h
      have hN0 : N = 0 := by omega
      subst hN0
      exact ⟨0, by simp, fun _ => rfl, fun h => absurd rfl h, by simp, by simp [storesDown]⟩

theorem ceilDiv_eq_of_bounds (L w k : Nat) (hw : 1 ≤ w) (h1 : w * (k - 1) < L)
    (h2 : L ≤ k * w) (hk : 1 ≤ k) : ceilDiv L w = k := by
  unfold ceilDiv
  obtain ⟨k', rfl⟩ : ∃ k', k = k' + 1 := ⟨k - 1, by omega⟩
  simp only [Nat.add_sub_cancel] at h1
  have h3 : (k' + 1) * w = w * k' + w := by ring
  apply Nat.div_eq_of_lt_le
  · rw [h3]; omega
  · have h4 : (k' + 1 + 1) * w = w * k' + w + w := by ring
    rw [h4]; omega

theorem blocks_count (r w : Nat) (hr : 2 ≤ r) (hw : 1 ≤ w) (N k : Nat)
    (hk : 1 ≤ k) (hle : (r ^ w) ^ (k - 1) ≤ N) (hlt : N < (r ^ w) ^ k) :
    ceilDiv (Nat.digits r N).length w = k := by
  have hL : (Nat.digits r N).length ≤ k * w := by
    apply digits_length_le r hr
    rw [Nat.mul_comm, pow_mul]; exact hlt
  have hup : N < r ^ (Nat.digits r N).length := Nat.lt_base_pow_length_digits (by omega)
  have hlow : r ^ (w * (k - 1)) < r ^ (Nat.digits r N).length := by
    rw [pow_mul]; omega
  have hexp : w * (k - 1) < (Nat.digits r N).length :=
    (Nat.pow_lt_pow_iff_right (by omega)).mp hlow
  exact ceilDiv_eq_of_bounds _ w k hw hexp hL hk

theorem print_steps {r w : Nat} {t : digit_blocks_t} (ht : TableOK r w t) (hr : 2 ≤ r)
    (hr36 : r ≤ 36) (hw : 1 ≤ w) (hw32 : w + 1 < 2 ^ 32) (st : PrintState)
    (hlen : st.s.length = digit_count_max r w) (sign : Char) (N : Nat) (hN0 : N ≠ 0)
    (hN : N < 2 ^ 63) :
    ∃ (st1 st2 st3 : PrintState) (v : Nat),
      block_loop t (8 * sizeof_integer) (N : Int) ((digit_count_max r w : Int) - 2) st
        = some ((digit_count_max r w : Int) - 2
            - ((ceilDiv (Nat.digits r N).length w * w : Nat) : Int), st1) ∧
      st1.trace
        = storesDown ((digit_count_max r w : Int) - 2) (ceilDiv (Nat.digits r N).length w * w)
          ++ st.trace ∧
      1 ≤ (Nat.digits r N).length ∧
      (Nat.digits r N).length ≤ ceilDiv (Nat.digits r N).length w * w ∧
      ceilDiv (Nat.digits r N).length w * w - (Nat.digits r N).length < w ∧
      ceilDiv (Nat.digits r N).length w * w + 1 ≤ digit_count_max r w ∧
      (∀ j : Int, (digit_count_max r w : Int) - 2
            - ((ceilDiv (Nat.digits r N).length w * w : Nat) : Int) < j →
          j < (digit_count_max r w : Int) - 1 - ((Nat.digits r N).length : Int) →
          sget st1.s j = some '0') ∧
      v ≠ 0 ∧ v < r ∧
      sget st1.s ((digit_count_max r w : Int) - 1 - ((Nat.digits r N).length : Int))
        = some (digitChar v) ∧
      skip_zeros (digit_count_max r w + 1)
          ((digit_count_max r w : Int) - 2
            - ((ceilDiv (Nat.digits r N).length w * w : Nat) : Int)) st1
        = some ((digit_count_max r w : Int) - 1 - ((Nat.digits r N).length : Int), st2) ∧
      s_write st2 ((digit_count_max r w : Int) - 1 - ((Nat.digits r N).length : Int) - 1) sign
        = some st3 ∧
      sget st3.s ((digit_count_max r w : Int) - 1 - ((Nat.digits r N).length : Int) - 1)
        = some sign ∧
      sget st3.s ((digit_count_max r w : Int) - 1 - ((Nat.digits r N).length : Int))
        = some (digitChar v) := by
  have hD := digit_count_max_ge r w hw hw32
  have hL := digits_length_bound r hr hr36 N hN
  have hLpos : 1 ≤ (Nat.digits r N).length := by
    rcases Nat.eq_zero_or_pos (Nat.digits r N).length with h | h
    · exact absurd (Nat.digits_eq_nil_iff_eq_zero.mp (List.length_eq_zero.mp h)) hN0
    · exact h
  have hB : 2 ≤ r ^ w := by
    calc 2 ≤ r := hr
      _ = r ^ 1 := (pow_one r).symm
      _ ≤ r ^ w := Nat.pow_le_pow_right (by omega) hw
  have hfuel : N < (r ^ w) ^ (8 * sizeof_integer) := by
    have h1 : 2 ^ 64 ≤ (r ^ w) ^ 64 := Nat.pow_le_pow_left hB 64
    have h2 : 8 * sizeof_integer = 64 := rfl
    rw [h2]; omega
  obtain ⟨k', st1, hb1, _, hkw', hl1, _, _, hg1⟩ :=
    block_loop_spec ht hr hw (8 * sizeof_integer) N ((digit_count_max r w : Int) - 2) st hfuel
      (by rw [hlen]) (by omega)
      (by
        intro k hk hle
        have := blocks_fit r w hr hr36 hw hw32 N hN k hk hle
        omega)
  obtain ⟨k, hp, _, hmin, hlt, htr⟩ :=
    block_loop_inv t ht.number_eq ht.width_eq hB _ N _ st _ st1 hb1
  obtain ⟨hk1, hle⟩ := hmin hN0
  have hkk : k' * w = k * w := by omega
  rw [hkk] at hb1 hg1 hkw'
  have hk : ceilDiv (Nat.digits r N).length w = k := blocks_count r w hr hw N k hk1 hle hlt
  have hLk : (Nat.digits r N).length ≤ k * w := by
    apply digits_length_le r hr
    rw [Nat.mul_comm, pow_mul]; exact hlt
  have hup : N < r ^ (Nat.digits r N).length := Nat.lt_base_pow_length_digits (by omega)
  have hexp : w * (k - 1) < (Nat.digits r N).length := by
    have hlow : r ^ (w * (k - 1)) < r ^ (Nat.digits r N).length := by
      rw [pow_mul]; omega
    exact (Nat.pow_lt_pow_iff_right (by omega)).mp hlow
  have hkw1 : k * w = w * (k - 1) + w := by
    obtain ⟨k0, rfl⟩ : ∃ k0, k = k0 + 1 := ⟨k - 1, by omega⟩
    simp only [Nat.add_sub_cancel]; ring
  rw [hk]
  have hz : ∀ j, (digit_count_max r w : Int) - 2 - ((k * w : Nat) : Int) < j →
      j < (digit_count_max r w : Int) - 1 - ((Nat.digits r N).length : Int) →
      sget st1.s j = some (digits 0) := by
    intro j h1 h2
    rw [hg1, if_pos ⟨h1, by omega⟩, high_digit_zero r hr N _ (by omega)]
    rfl
  have hzc : sget st1.s ((digit_count_max r w : Int) - 1 - ((Nat.digits r N).length : Int))
      = some (digitChar (N / r ^ ((Nat.digits r N).length - 1) % r)) := by
    rw [hg1, if_pos ⟨by omega, by omega⟩]
    have : ((digit_count_max r w : Int) - 2
        - ((digit_count_max r w : Int) - 1 - ((Nat.digits r N).length : Int))).toNat
        = (Nat.digits r N).length - 1 := by omega
    rw [this]
  have hvlt : N / r ^ ((Nat.digits r N).length - 1) % r < r := Nat.mod_lt _ (by omega)
  have hv0 := leading_digit r hr N hN0
  have hlead : digitChar (N / r ^ ((Nat.digits r N).length - 1) % r) ≠ digits 0 := by
    intro h
    exact hv0 ((digitChar_eq_zero_iff _ (by omega)).mp h)
  obtain ⟨st2, hs2, hs2s, _, _⟩ :=
    skip_zeros_spec ((digit_count_max r w : Int) - 1 - ((Nat.digits r N).length : Int))
      (digit_count_max r w + 1) _ st1 _ (by omega) (by push_cast; omega) hz hzc hlead
  have hl2 : st2.s.length = digit_count_max r w := by rw [hs2s, hl1, hlen]
  obtain ⟨st3, hw3, _, _, _, hg3⟩ :=
    s_write_spec st2
      (show 0 ≤ (digit_count_max r w : Int) - 1 - ((Nat.digits r N).length : Int) - 1 by omega)
      (by rw [hl2]; omega) sign
  refine ⟨st1, st2, st3, N / r ^ ((Nat.digits r N).length - 1) % r, hb1, htr, hLpos, hLk,
    by omega, by omega, hz, hv0, hvlt, hzc, hs2, hw3, ?_, ?_⟩
  · rw [hg3, if_pos rfl]
  · rw [hg3, if_neg (by omega), hs2s]
    exact hzc

theorem copy_previous_erase (i : Nat) : ∀ (count j : Nat) (b : BlockArray)
    (log : List FillEvent),
    (copy_previous_logged i count j (b, log)).map Prod.fst = copy_previous i count j b
  | 0, j, b, log => rfl
  | count + 1, j, b, log => by
    simp only [copy_previous_logged, copy_previous]
    cases blocks_read b ((i + (2 ^ 32 - 1)) % 2 ^ 32) j with
    | none => rfl
    | some c =>
      simp only
      cases blocks_write b i j c with
      | none => rfl
      | some b1 => exact copy_previous_erase i count (j + 1) b1 _

theorem filling_while_erase (base position : Nat)
    {innerL : FillState × List FillEvent → Option (FillState × List FillEvent)}
    {inner : FillState → Option FillState}
    (hinner : ∀ st log, (innerL (st, log)).map Prod.fst = inner st) :
    ∀ (fuel i_digit : Nat) (st : FillState) (log : List FillEvent),
      (filling_while_logged base position innerL fuel i_digit (st, log)).map Prod.fst
        = filling_while base position inner fuel i_digit st
  | 0, _, _, _ => rfl
  | fuel + 1, i_digit, st, log => by
    simp only [filling_while_logged, filling_while]
    by_cases hlt : i_digit + 1 < base
    · rw [if_pos hlt, if_pos hlt]
      have hcp := copy_previous_erase st.i position 0 st.blocks log
      cases hc : copy_previous_logged st.i position 0 (st.blocks, log) with
      | none =>
        rw [hc] at hcp
        simp only [Option.map_none'] at hcp
        rw [← hcp]
        rfl
      | some x =>
        obtain ⟨b1, log1⟩ := x
        rw [hc] at hcp
        simp only [Option.map_some'] at hcp
        rw [← hcp]
        simp only
        cases blocks_write b1 st.i position (digits (i_digit + 1)) with
        | none => rfl
        | some b2 =>
          simp only
          have hin := hinner { st with blocks := b2 }
            (FillEvent.store st.i position :: FillEvent.digit (i_digit + 1) :: log1)
          cases hi : innerL ({ st with blocks := b2 },
              FillEvent.store st.i position :: FillEvent.digit (i_digit + 1) :: log1) with
          | none =>
            rw [hi] at hin
            simp only [Option.map_none'] at hin
            rw [← hin]
            rfl
          | some y =>
            obtain ⟨st2, log2⟩ := y
            rw [hi] at hin
            simp only [Option.map_some'] at hin
            rw [← hin]
            exact filling_while_erase base position hinner fuel (i_digit + 1) st2 log2
    · rw [if_neg hlt, if_neg hlt]
      rfl

theorem filling_erase (base : Nat) : ∀ (k position : Nat) (st : FillState)
    (log : List FillEvent),
    (filling_logged base k position (st, log)).map Prod.fst = filling base k position st
  | 0, _, _, _ => rfl
  | k + 1, position, st, log => by
    simp only [filling_logged, filling]
    cases blocks_write st.blocks st.i position (digits 0) with
    | none => rfl
    | some b1 =>
      simp only
      have hin := filling_erase base k (position + 1) { st with blocks := b1 }
        (FillEvent.store st.i position :: FillEvent.digit 0 :: log)
      cases hi : filling_logged base k (position + 1) ({ st with blocks := b1 },
          FillEvent.store st.i position :: FillEvent.digit 0 :: log) with
      | none =>
        rw [hi] at hin
        simp only [Option.map_none'] at hin
        rw [← hin]
        rfl
      | some y =>
        obtain ⟨st2, log2⟩ := y
        rw [hi] at hin
        simp only [Option.map_some'] at hin
        rw [← hin]
        exact filling_while_erase base position
          (fun st' log' => filling_erase base k (position + 1) st' log') base 0 st2 log2

theorem blocks_write_shape {bn w : Nat} {b b1 : BlockArray} {i p : Nat} {c : Char}
    (hs : Shape bn w b) (h : blocks_write b i p c = some b1) :
    i < bn ∧ p < w ∧ Shape bn w b1 := by
  have hib : i < b.length := (blocks_write_inv h).1
  have hi : i < bn := by rw [← hs.1]; exact hib
  have hrow : (b[i]).length = w := hs.2 _ (List.getElem_mem _)
  have hp : p < w := by
    unfold blocks_write at h
    rw [List.getElem?_eq_getElem hib] at h
    simp only at h
    by_contra hnp
    rw [if_neg (by rw [hrow]; exact hnp)] at h
    cases h
  obtain ⟨b2, hw2, hs2, _⟩ := blocks_write_spec hs hi hp c
  rw [h] at hw2
  cases hw2
  exact ⟨hi, hp, hs2⟩

theorem eventOK_mono {r w lo hi lo1 hi1 : Nat} (hlo : lo1 ≤ lo) (hhi : hi ≤ hi1)
    {e : FillEvent} (h : EventOK r w lo hi e) : EventOK r w lo1 hi1 e := by
  cases e with
  | store row col => exact ⟨by have := h.1; omega, by have := h.2.1; omega, h.2.2⟩
  | copy row col => exact ⟨by have := h.1; omega, by have := h.2.1; omega, h.2.2⟩
  | digit index => exact h

theorem covered_mono {log log1 : List FillEvent} {row col : Nat}
    (hsub : ∀ e, e ∈ log → e ∈ log1) (h : Covered log row col) : Covered log1 row col := by
  rcases h with h | h
  · exact Or.inl (hsub _ h)
  · exact Or.inr (hsub _ h)

theorem copy_previous_logged_inv {bn w : Nat} (i : Nat) :
    ∀ (count j : Nat) (b : BlockArray) (log : List FillEvent) (b1 : BlockArray)
      (log1 : List FillEvent), Shape bn w b →
      copy_previous_logged i count j (b, log) = some (b1, log1) →
      Shape bn w b1 ∧ ∃ new, log1 = new ++ log ∧
        (∀ e ∈ new, ∃ col, e = FillEvent.copy i col ∧ i < bn ∧ col < w) ∧
        (∀ col, j ≤ col → col < j + count → FillEvent.copy i col ∈ new)
  | 0, j, b, log, b1, log1, hs, h => by
    simp only [copy_previous_logged] at h
    cases h
    exact ⟨hs, [], rfl, by intro e he; simp at he, by intro col h1 h2; omega⟩
  | count + 1, j, b, log, b1, log1, hs, h => by
    simp only [copy_previous_logged] at h
    cases hrd : blocks_read b ((i + (2 ^ 32 - 1)) % 2 ^ 32) j with
    | none => rw [hrd] at h; cases h
    | some c =>
      rw [hrd] at h
      simp only at h
      cases hwr : blocks_write b i j c with
      | none => rw [hwr] at h; cases h
      | some b2 =>
        rw [hwr] at h
        simp only at h
        obtain ⟨hi, hj, hs2⟩ := blocks_write_shape hs hwr
        obtain ⟨hs1, new, hnew, hok, hcov⟩ :=
          copy_previous_logged_inv i count (j + 1) b2 _ b1 log1 hs2 h
        refine ⟨hs1, new ++ [FillEvent.copy i j], by rw [hnew]; simp, ?_, ?_⟩
        · intro e he
          rcases List.mem_append.mp he with h1 | h1
          · exact hok e h1
          · simp only [List.mem_singleton] at h1
            exact ⟨j, h1, hi, hj⟩
        · intro col h1 h2
          by_cases hc : col = j
          · subst hc
            exact List.mem_append.mpr (Or.inr (by simp))
          · exact List.mem_append.mpr (Or.inl (hcov col (by omega) (by omega)))

theorem filling_while_logged_inv {r w bn k p : Nat} (hpk : p + (k + 1) = w)
    {innerL : FillState × List FillEvent → Option (FillState × List FillEvent)}
    (hinner : LogSpec r w bn k (p + 1) innerL) (i0 : Nat) :
    ∀ (fuel d : Nat) (st : FillState) (log : List FillEvent) (st1 : FillState)
      (log1 : List FillEvent), Shape bn w st.blocks → d + 1 ≤ r →
      st.i = i0 + (d + 1) * r ^ k → st.i ≤ bn →
      filling_while_logged r p innerL fuel d (st, log) = some (st1, log1) →
      st1.i = i0 + r * r ^ k ∧ st1.i ≤ bn ∧ Shape bn w st1.blocks ∧
      ∃ new, log1 = new ++ log ∧ (∀ e ∈ new, EventOK r w i0 (i0 + r * r ^ k) e) ∧
        (∀ row col, st.i ≤ row → row < i0 + r * r ^ k → col < w → Covered new row col)
  | 0, d, st, log, st1, log1, _, _, _, _, h => by
    simp only [filling_while_logged] at h
    cases h
  | fuel + 1, d, st, log, st1, log1, hs, hd, hi, hile, h => by
    have hR : 0 < r ^ k := pow_pos (by omega) _
    simp only [filling_while_logged] at h
    by_cases hlt : d + 1 < r
    · rw [if_pos hlt] at h
      have hle : (d + 1) * r ^ k + r ^ k ≤ r * r ^ k := by
        have : (d + 2) * r ^ k ≤ r * r ^ k := Nat.mul_le_mul_right _ (by omega)
        calc (d + 1) * r ^ k + r ^ k = (d + 2) * r ^ k := by ring
          _ ≤ r * r ^ k := this
      have hpos : 1 ≤ (d + 1) * r ^ k := Nat.mul_pos (by omega) hR
      cases hcp : copy_previous_logged st.i p 0 (st.blocks, log) with
      | none => rw [hcp] at h; cases h
      | some x =>
        obtain ⟨b1, logc⟩ := x
        rw [hcp] at h
        simp only at h
        obtain ⟨hs1, newc, hnewc, hokc, hcovc⟩ :=
          copy_previous_logged_inv st.i p 0 st.blocks log b1 logc hs hcp
        cases hwr : blocks_write b1 st.i p (digits (d + 1)) with
        | none => rw [hwr] at h; cases h
        | some b2 =>
          rw [hwr] at h
          simp only at h
          obtain ⟨hib, hpw, hs2⟩ := blocks_write_shape hs1 hwr
          cases hin : innerL ({ st with blocks := b2 },
              FillEvent.store st.i p :: FillEvent.digit (d + 1) :: logc) with
          | none => rw [hin] at h; cases h
          | some y =>
            obtain ⟨st2, log2⟩ := y
            rw [hin] at h
            simp only at h
            obtain ⟨hi2, hle2, hsh2, newi, hnewi, hoki, hcovi0, hcovi⟩ :=
              hinner { st with blocks := b2 } _ st2 log2 hs2 (fun _ => hib) hin
            simp only at hi2 hle2 hoki hcovi0 hcovi
            have hi2' : st2.i = i0 + (d + 1 + 1) * r ^ k := by
              rw [hi2, hi]; ring
            obtain ⟨hres, hresle, hshr, newr, hnewr, hokr, hcovr⟩ :=
              filling_while_logged_inv hpk hinner i0 fuel (d + 1) st2 log2 st1 log1 hsh2
                (by omega) hi2' (by omega) h
            refine ⟨hres, hresle, hshr,
              newr ++ (newi ++ (FillEvent.store st.i p :: FillEvent.digit (d + 1) :: newc)),
              by rw [hnewr, hnewi, hnewc]; simp, ?_, ?_⟩
            · intro e he
              rcases List.mem_append.mp he with h1 | h1
              · exact hokr e h1
              · rcases List.mem_append.mp h1 with h2 | h2
                · exact eventOK_mono (by omega) (by omega) (hoki e h2)
                · rcases List.mem_cons.mp h2 with h3 | h3
                  · subst h3
                    exact ⟨by omega, by omega, hpw⟩
                  · rcases List.mem_cons.mp h3 with h4 | h4
                    · subst h4
                      exact hlt
                    · obtain ⟨col, rfl, _, hcw⟩ := hokc e h4
                      exact ⟨by omega, by omega, hcw⟩
            · intro row col hrow hrowhi hcol
              by_cases h1 : row < st.i + r ^ k
              · refine covered_mono (fun e he => List.mem_append.mpr (Or.inr he))
                  (?_ : Covered (newi ++ (FillEvent.store st.i p ::
                    FillEvent.digit (d + 1) :: newc)) row col)
                by_cases h2 : row = st.i
                · subst h2
                  by_cases h3 : col < p
                  · exact Or.inr (by simp [hcovc col (by omega) (by omega)])
                  · by_cases h4 : col = p
                    · subst h4
                      exact Or.inl (by simp)
                    · exact covered_mono (fun e he => List.mem_append.mpr (Or.inl he))
                        (hcovi0 col (by omega) hcol)
                · exact covered_mono (fun e he => List.mem_append.mpr (Or.inl he))
                    (hcovi row col (by omega) h1 hcol)
              · exact covered_mono (fun e he => List.mem_append.mpr (Or.inl he))
                  (hcovr row col (by omega) hrowhi hcol)
    · rw [if_neg hlt] at h
      cases h
      have hd' : d + 1 = r := by omega
      refine ⟨by rw [hi, hd'], hile, hs, [], rfl, by intro e he; simp at he, ?_⟩
      intro row col h1 h2 _
      rw [hi, hd'] at h1
      omega

theorem filling_logged_spec {r w bn : Nat} (hr : 2 ≤ r) (hbn : bn < 2 ^ 32) :
    ∀ (k p : Nat), p + k = w → LogSpec r w bn k p (filling_logged r k p)
  | 0, p, hpk => by
    intro st log st1 log1 hs hk h
    simp only [filling_logged] at h
    cases h
    have hi := hk rfl
    simp only [pow_zero]
    refine ⟨by omega, by omega, hs, [], rfl, by intro e he; simp at he, ?_, ?_⟩
    · intro col h1 h2; omega
    · intro row col h1 h2; omega
  | k + 1, p, hpk => by
    intro st log st1 log1 hs _ h
    have hR : 0 < r ^ k := pow_pos (by omega) _
    have hpow : r ^ (k + 1) = r * r ^ k := by rw [pow_succ, Nat.mul_comm]
    have hRle : r ^ k ≤ r * r ^ k := Nat.le_mul_of_pos_left _ (by omega)
    simp only [filling_logged] at h
    cases hwr : blocks_write st.blocks st.i p (digits 0) with
    | none => rw [hwr] at h; cases h
    | some b1 =>
      rw [hwr] at h
      simp only at h
      obtain ⟨hib, hpw, hs1⟩ := blocks_write_shape hs hwr
      cases hin : filling_logged r k (p + 1) ({ st with blocks := b1 },
          FillEvent.store st.i p :: FillEvent.digit 0 :: log) with
      | none => rw [hin] at h; cases h
      | some y =>
        obtain ⟨st2, log2⟩ := y
        rw [hin] at h
        simp only at h
        obtain ⟨hi2, hle2, hsh2, newi, hnewi, hoki, hcovi0, hcovi⟩ :=
          filling_logged_spec hr hbn k (p + 1) (by omega) { st with blocks := b1 } _ st2 log2
            hs1 (fun _ => hib) hin
        simp only at hi2 hle2 hoki hcovi0 hcovi
        obtain ⟨hres, hresle, hshr, newr, hnewr, hokr, hcovr⟩ :=
          filling_while_logged_inv (by omega) (filling_logged_spec hr hbn k (p + 1) (by omega))
            st.i r 0 st2 log2 st1 log1 hsh2 (by omega) (by rw [hi2]; ring) (by omega) h
        rw [hpow]
        refine ⟨hres, by omega, hshr,
          newr ++ (newi ++ [FillEvent.store st.i p, FillEvent.digit 0]),
          by rw [hnewr, hnewi]; simp, ?_, ?_, ?_⟩
        · intro e he
          rcases List.mem_append.mp he with h1 | h1
          · exact hokr e h1
          · rcases List.mem_append.mp h1 with h2 | h2
            · exact eventOK_mono (Nat.le_refl _) (by omega) (hoki e h2)
            · rcases List.mem_cons.mp h2 with h3 | h3
              · subst h3
                exact ⟨Nat.le_refl _, by omega, hpw⟩
              · simp only [List.mem_singleton] at h3
                subst h3
                show 0 < r
                omega
        · intro col h1 h2
          refine covered_mono (fun e he => List.mem_append.mpr (Or.inr he))
            (?_ : Covered (newi ++ [FillEvent.store st.i p, FillEvent.digit 0]) st.i col)
          by_cases h4 : col = p
          · subst h4
            exact Or.inl (by simp)
          · exact covered_mono (fun e he => List.mem_append.mpr (Or.inl he))
              (hcovi0 col (by omega) h2)
        · intro row col h1 h2 hcol
          by_cases h3 : row < st.i + r ^ k
          · exact covered_mono
              (fun e he => List.mem_append.mpr (Or.inr (List.mem_append.mpr (Or.inl he))))
              (hcovi row col h1 h3 hcol)
          · exact covered_mono (fun e he => List.mem_append.mpr (Or.inl he))
              (hcovr row col (by omega) h2 hcol)

theorem test_range_call_eq (mn mx step base : Nat) (h1 : mn ≤ mx) (h2 : 1 ≤ step)
    (h3 : mx + step < 2 ^ 32) :
    test_range.call mn mx step base
      = some ((List.range (1 + (mx - mn + step - 1) / step)).map
          (fun k => (base, mn + k * step))) := by
  obtain ⟨m, hmdef, hm1⟩ : ∃ m, mx - mn + step - 1 = m ∧ m + 1 + mn = mx + step :=
    ⟨_, rfl, by omega⟩
  have hm : ((mx - mn + step) % 2 ^ 32 + (2 ^ 32 - 1)) % 2 ^ 32 = m := by
    omega
  have hq : m / step * step ≤ m := Nat.div_mul_le_self _ _
  have hq1 : m / step ≤ m / step * step := Nat.le_mul_of_pos_right _ (by omega)
  have hc : (1 + m / step) % 2 ^ 32 = 1 + m / step := by
    apply Nat.mod_eq_of_lt
    omega
  unfold test_range.call
  rw [if_pos h1, if_neg (show ¬ step = 0 by omega), hmdef]
  dsimp only
  rw [hm, hc]
  refine congrArg some (List.map_congr_left ?_)
  intro k hk
  have hk' : k ≤ m / step := by
    have := List.mem_range.mp hk
    omega
  have hks : k * step ≤ m / step * step := Nat.mul_le_mul_right _ hk'
  have e1 : k * step % 2 ^ 32 = k * step := Nat.mod_eq_of_lt (by omega)
  rw [e1]
  have e2 : (mn + k * step) % 2 ^ 32 = mn + k * step := Nat.mod_eq_of_lt (by omega)
  rw [e2]

theorem test_range_call_exact (mn mx step base : Nat) (h1 : mn ≤ mx) (h2 : 1 ≤ step)
    (h3 : mx + step < 2 ^ 32) (hdvd : step ∣ mx - mn) :
    test_range.call mn mx step base
      = some ((rangeSizes mn mx step).map (fun b => (base, b))) := by
  rw [test_range_call_eq mn mx step base h1 h2 h3]
  obtain ⟨q, hq⟩ := hdvd
  have e1 : (mx - mn) / step = q := by
    rw [hq]; exact Nat.mul_div_cancel_left q (by omega)
  have e2 : (mx - mn + step - 1) / step = q := by
    rw [hq]
    apply Nat.div_eq_of_lt_le
    · rw [Nat.mul_comm]; omega
    · have : (q + 1) * step = step * q + step := by ring
      rw [this]; omega
  simp only [rangeSizes, e1, e2, List.map_map]
  rw [Nat.add_comm 1 q]
  rfl

theorem test_range_call_overshoot (mn mx step base : Nat) (h1 : mn ≤ mx) (h2 : 1 ≤ step)
    (h3 : mx + step < 2 ^ 32) (hndvd : ¬ step ∣ mx - mn) :
    ∃ sizes, test_range.call mn mx step base = some sizes ∧
      (base, mn + ((mx - mn) / step + 1) * step) ∈ sizes ∧
      mx < mn + ((mx - mn) / step + 1) * step := by
  rw [test_range_call_eq mn mx step base h1 h2 h3]
  have hmod : 0 < (mx - mn) % step := by
    rcases Nat.eq_zero_or_pos ((mx - mn) % step) with h | h
    · exact absurd (Nat.dvd_of_mod_eq_zero h) hndvd
    · exact h
  have hlt := Nat.mod_lt (mx - mn) (show 0 < step by omega)
  have hdm := Nat.div_add_mod (mx - mn) step
  have hcomm : step * ((mx - mn) / step) = (mx - mn) / step * step := Nat.mul_comm _ _
  have e2 : (mx - mn + step - 1) / step = (mx - mn) / step + 1 := by
    apply Nat.div_eq_of_lt_le
    · have : ((mx - mn) / step + 1) * step = (mx - mn) / step * step + step := by ring
      rw [this]; omega
    · have : ((mx - mn) / step + 1 + 1) * step = (mx - mn) / step * step + step + step := by
        ring
      rw [this]; omega
  refine ⟨_, rfl, ?_, ?_⟩
  · rw [e2]
    exact List.mem_map.mpr ⟨(mx - mn) / step + 1, List.mem_range.mpr (by omega), rfl⟩
  · have : ((mx - mn) / step + 1) * step = (mx - mn) / step * step + step := by ring
    rw [this]; omega

/-! ## The claims -/

/-- C1: for a radix `r` in 2..36 and a block width `w ≥ 1` with `r^w ≤ 2^31-1`, the
constructor of `digit_blocks_t` succeeds with `block_number = r^w`, and entry `i` of the
table, for every `i < r^w`, is the `w`-character string of the base-`r` digits of `i`,
most significant first, left-padded with `'0'`, over the alphabet `0-9A-Z`. -/
theorem C1_block_table (r w : Nat) (hr : 2 ≤ r) (hr36 : r ≤ 36) (_hw : 1 ≤ w)
    (hrep : r ^ w ≤ 2 ^ 31 - 1) :
    ∃ t, digit_blocks_t.construct w r = some t ∧ t.block_number = r ^ w ∧
      t.blocks.length = r ^ w ∧
      ∀ i, i < r ^ w →
        t.blocks[i]? = some (List.replicate (w - (Nat.digits r i).length) '0'
          ++ (Nat.digits r i).reverse.map digitChar) := by
  obtain ⟨t, hc, ht⟩ := construct_spec r w hr hr36 hrep
  exact ⟨t, hc, ht.number_eq, ht.length_eq, ht.row_eq⟩

/-- Witness of C1 at radix 2 and width 2. -/
theorem C1_block_table_witness :
    2 ≤ 2 ∧ 2 ≤ 36 ∧ 1 ≤ 2 ∧ 2 ^ 2 ≤ 2 ^ 31 - 1 ∧
    ∃ t, digit_blocks_t.construct 2 2 = some t ∧ t.block_number = 2 ^ 2 ∧
      t.blocks.length = 2 ^ 2 ∧
      ∀ i, i < 2 ^ 2 →
        t.blocks[i]? = some (List.replicate (2 - (Nat.digits 2 i).length) '0'
          ++ (Nat.digits 2 i).reverse.map digitChar) :=
  ⟨by decide, by decide, by decide, by decide,
    C1_block_table 2 2 (by decide) (by decide) (by decide) (by decide)⟩

/-- C2: round trip. For a radix `r` in 2..36, a width `w ≥ 1` with `r^w ≤ 2^31-1` and a
64-bit `n` other than `-2^63`, `print` emits a text whose characters before the
separating space, read as a base-`r` signed integer literal (optional sign, digits
`0-9A-Z`), are `n` again. -/
theorem C2_round_trip (r w : Nat) (n : Int) (uninit : Nat → Char) (hr : 2 ≤ r)
    (hr36 : r ≤ 36) (hw : 1 ≤ w) (hrep : r ^ w ≤ 2 ^ 31 - 1) (hlo : - 2 ^ 63 ≤ n)
    (hhi : n ≤ 2 ^ 63 - 1) (hmin : n ≠ - 2 ^ 63) :
    ∃ out, integer_printer_t.print r w [n] uninit = some out ∧
      parseInteger r (out.takeWhile (fun c => decide (c ≠ ' '))) = some n := by
  refine ⟨printed r [n], print_spec r w hr hr36 hw hrep [n] ?_ uninit, ?_⟩
  · intro m hm
    simp only [List.mem_singleton] at hm
    subst hm
    omega
  · simp only [printed]
    rw [takeWhile_before_space _ _ (text_no_space r hr hr36 n)]
    exact parseInteger_text r hr hr36 n

/-- Witness of C2 at radix 2, width 1 and `n = -5`. -/
theorem C2_round_trip_witness :
    ∃ out, integer_printer_t.print 2 1 [-5] (fun _ => 'x') = some out ∧
      parseInteger 2 (out.takeWhile (fun c => decide (c ≠ ' '))) = some (-5) :=
  C2_round_trip 2 1 (-5) (fun _ => 'x') (by decide) (by decide) (by decide) (by decide)
    (by decide) (by decide) (by decide)

/-- C3, as stated, fails: with radix 10 and width 1 the text emitted for the
non-negative `n = 5` is `+5`, whose first character is the sign `+` and not a digit. -/
theorem C3_counterexample :
    integer_printer_t.print 10 1 [5] (fun _ => 'x') = some ['+', '5', ' '] ∧
    digitValue '+' = none := by
  decide

/-- C3, amended: for a valid radix and width and a 64-bit `n` other than `-2^63`, the
text emitted for a negative `n` begins with `-`, the text emitted for a positive `n`
begins with `+` followed by a digit, and only `n = 0` is emitted without a sign, as `0`. -/
theorem C3_sign_handling (r w : Nat) (n : Int) (uninit : Nat → Char) (hr : 2 ≤ r)
    (hr36 : r ≤ 36) (hw : 1 ≤ w) (hrep : r ^ w ≤ 2 ^ 31 - 1) (hlo : - 2 ^ 63 < n)
    (hhi : n < 2 ^ 63) :
    ∃ out, integer_printer_t.print r w [n] uninit = some out ∧
      (n < 0 → out.head? = some '-') ∧
      (0 < n → out.head? = some '+' ∧ ∃ v, v < r ∧ out[1]? = some (digitChar v)) ∧
      (n = 0 → out = ['0', ' ']) := by
  refine ⟨printed r [n], print_spec r w hr hr36 hw hrep [n] ?_ uninit, ?_, ?_, ?_⟩
  · intro m hm
    simp only [List.mem_singleton] at hm
    subst hm
    exact ⟨hlo, hhi⟩
  · intro hneg
    simp [printed, text, hneg, show n ≠ 0 by omega]
  · intro hpos
    have hL : 0 < (Nat.digits r n.natAbs).length := by
      rcases Nat.eq_zero_or_pos (Nat.digits r n.natAbs).length with h | h
      · have := Nat.digits_eq_nil_iff_eq_zero.mp (List.length_eq_zero.mp h)
        omega
      · exact h
    refine ⟨by simp [printed, text, show ¬ n < 0 by omega, show n ≠ 0 by omega],
      n.natAbs / r ^ ((Nat.digits r n.natAbs).length - 1 - 0) % r, Nat.mod_lt _ (by omega), ?_⟩
    simp only [printed, text, if_neg (show n ≠ 0 by omega), List.cons_append,
      List.getElem?_cons_succ]
    rw [List.getElem?_append_left (by rw [digitsText_length]; exact hL)]
    exact digitsText_getElem? r hr n.natAbs 0 hL
  · intro h0
    subst h0
    simp [printed, text]

/-- Witness of the amended C3 at radix 2, width 1 and `n = -5`. -/
theorem C3_sign_handling_witness :
    ∃ out, integer_printer_t.print 2 1 [-5] (fun _ => 'x') = some out ∧
      ((-5 : Int) < 0 → out.head? = some '-') ∧
      ((0 : Int) < -5 → out.head? = some '+' ∧ ∃ v, v < 2 ∧ out[1]? = some (digitChar v)) ∧
      ((-5 : Int) = 0 → out = ['0', ' ']) :=
  C3_sign_handling 2 1 (-5) (fun _ => 'x') (by decide) (by decide) (by decide) (by decide)
    (by decide) (by decide)

/-- C4: for a valid radix and width, any list of 64-bit integers other than `-2^63` and
any initial content of the buffer `s`, the output of `print` is the concatenation, in
input order, of `text r n` followed by one space, where `text r n` is a function of the
radix and the integer alone. -/
theorem C4_output_format (r w : Nat) (integers : List Int) (uninit : Nat → Char)
    (hr : 2 ≤ r) (hr36 : r ≤ 36) (hw : 1 ≤ w) (hrep : r ^ w ≤ 2 ^ 31 - 1)
    (hrange : ∀ n ∈ integers, - 2 ^ 63 < n ∧ n < 2 ^ 63) :
    integer_printer_t.print r w integers uninit = some (printed r integers) :=
  print_spec r w hr hr36 hw hrep integers hrange uninit

/-- Witness of C4 at radix 2, width 2 and the list `[6, 0, -1]`. -/
theorem C4_output_format_witness :
    integer_printer_t.print 2 2 [6, 0, -1] (fun _ => '0') = some (printed 2 [6, 0, -1]) :=
  C4_output_format 2 2 [6, 0, -1] (fun _ => '0') (by decide) (by decide) (by decide)
    (by decide) (by decide)

/-- C5: for a radix `r` in 2..36, a 64-bit `n` other than `-2^63` and two widths
`w1, w2 ≥ 1` with `r^w1` and `r^w2` at most `2^31-1`, the two printers emit the same text. -/
theorem C5_width_independent (r w1 w2 : Nat) (n : Int) (u1 u2 : Nat → Char) (hr : 2 ≤ r)
    (hr36 : r ≤ 36) (hw1 : 1 ≤ w1) (hw2 : 1 ≤ w2) (hrep1 : r ^ w1 ≤ 2 ^ 31 - 1)
    (hrep2 : r ^ w2 ≤ 2 ^ 31 - 1) (hlo : - 2 ^ 63 < n) (hhi : n < 2 ^ 63) :
    ∃ out, integer_printer_t.print r w1 [n] u1 = some out ∧
      integer_printer_t.print r w2 [n] u2 = some out := by
  have hrange : ∀ m ∈ [n], - 2 ^ 63 < m ∧ m < 2 ^ 63 := by
    intro m hm
    simp only [List.mem_singleton] at hm
    subst hm
    exact ⟨hlo, hhi⟩
  exact ⟨printed r [n], print_spec r w1 hr hr36 hw1 hrep1 [n] hrange u1,
    print_spec r w2 hr hr36 hw2 hrep2 [n] hrange u2⟩

/-- Witness of C5 at radix 2, widths 1 and 3 and `n = 5`. -/
theorem C5_width_independent_witness :
    ∃ out, integer_printer_t.print 2 1 [5] (fun _ => 'a') = some out ∧
      integer_printer_t.print 2 3 [5] (fun _ => 'b') = some out :=
  C5_width_independent 2 1 3 5 (fun _ => 'a') (fun _ => 'b') (by decide) (by decide)
    (by decide) (by decide) (by decide) (by decide) (by decide) (by decide)

/-- C6: for a valid radix and width and a 64-bit `n` with `1 ≤ |n| ≤ 2^63-1`, `print`
runs to its end, and after the initial store of the terminator every access to `s`
(block copies, the scan over leading zeros, the store of the sign, the final read of the
text) has its index in `[0, digit_count_max-1]`, and every store has its index at most
`digit_count_max-2`, so the terminator is never overwritten. The capacity is
`1 + ((1 + w + 8*digits_per_byte[r][0]/digits_per_byte[r][1]) / w) * w`. -/
theorem C6_buffer_bounds (r w : Nat) (n : Int) (uninit : Nat → Char) (hr : 2 ≤ r)
    (hr36 : r ≤ 36) (hw : 1 ≤ w) (hrep : r ^ w ≤ 2 ^ 31 - 1) (hn1 : 1 ≤ |n|)
    (hn2 : |n| ≤ 2 ^ 63 - 1) :
    digit_count_max r w
        = 1 + ((1 + w + 8 * (digits_per_byte r).1 / (digits_per_byte r).2) / w) * w ∧
    ∃ st new, integer_printer_t.print_state r w [n] uninit = some st ∧
      st.trace = new ++ [Access.write ((digit_count_max r w : Int) - 1)] ∧
      ∀ a ∈ new, 0 ≤ a.index ∧ a.index ≤ (digit_count_max r w : Int) - 1 ∧
        ∀ i, a = Access.write i → i ≤ (digit_count_max r w : Int) - 2 := by
  have hw31 := width_lt r w hr hrep
  have habs := abs_le.mp hn2
  refine ⟨digit_count_max_eq r w (by omega), ?_⟩
  obtain ⟨st, hs, _, new, hnew, hgood⟩ :=
    print_state_spec r w hr hr36 hw hrep [n] (by
      intro m hm
      simp only [List.mem_singleton] at hm
      subst hm
      omega) uninit
  exact ⟨st, new, hs, hnew, hgood⟩

/-- Witness of C6 at radix 2, width 3 and `n = 9`. -/
theorem C6_buffer_bounds_witness :
    digit_count_max 2 3
        = 1 + ((1 + 3 + 8 * (digits_per_byte 2).1 / (digits_per_byte 2).2) / 3) * 3 ∧
    ∃ st new, integer_printer_t.print_state 2 3 [9] (fun _ => 'x') = some st ∧
      st.trace = new ++ [Access.write ((digit_count_max 2 3 : Int) - 1)] ∧
      ∀ a ∈ new, 0 ≤ a.index ∧ a.index ≤ (digit_count_max 2 3 : Int) - 1 ∧
        ∀ i, a = Access.write i → i ≤ (digit_count_max 2 3 : Int) - 2 :=
  C6_buffer_bounds 2 3 9 (fun _ => 'x') (by decide) (by decide) (by decide) (by decide)
    (by decide) (by decide)

/-- C7, as stated, fails: for radix 16 and width 1 the capacity is 19, below
`1 + ceil(max_digit_count / w) * w + 1 = 35` for the stated
`max_digit_count = ceil(64 * denominator / numerator) + 1 = 33`. The table holds digits
per byte, not bits per digit; and even with `max_digit_count = 8 * numerator /
denominator + 1 = 65`, radix 2 and width 2 give capacity 67, below `1 + 66 + 1`. -/
theorem C7_counterexample :
    digit_count_max 16 1 = 19 ∧ max_digit_count_spec 16 64 = 33 ∧
    ¬ (digit_count_max 16 1 ≥ 1 + ceilDiv (max_digit_count_spec 16 64) 1 * 1 + 1) ∧
    digit_count_max 2 2 = 67 ∧
    ¬ (digit_count_max 2 2
        ≥ 1 + ceilDiv (8 * (digits_per_byte 2).1 / (digits_per_byte 2).2 + 1) 2 * 2 + 1) := by
  decide

/-- C7, amended: for a radix `r` in 2..36 and a width `w ≥ 1` (below `2^32 - 1`), with
`max_digit_count = 8 * numerator / denominator + 1` for `(numerator, denominator) =
digits_per_byte[r]` (integer division), no value below `2^63` has more than
`max_digit_count` digits in base `r`, and the capacity `digit_count_max` is at least
`1 + max_digit_count + 1` (sign, digits, terminator) and at least
`ceil(max_digit_count / w) * w + 1` (whole blocks, terminator). -/
theorem C7_capacity (r w : Nat) (hr : 2 ≤ r) (hr36 : r ≤ 36) (hw : 1 ≤ w)
    (hw32 : w + 1 < 2 ^ 32) :
    2 ^ 63 ≤ r ^ (8 * (digits_per_byte r).1 / (digits_per_byte r).2 + 1) ∧
    digit_count_max r w ≥ 1 + (8 * (digits_per_byte r).1 / (digits_per_byte r).2 + 1) + 1 ∧
    digit_count_max r w
      ≥ ceilDiv (8 * (digits_per_byte r).1 / (digits_per_byte r).2 + 1) w * w + 1 := by
  have h1 := two_pow_63_le r hr hr36
  have h2 := digit_count_max_ge r w hw hw32
  have h3 := digit_count_max_eq r w hw32
  have hD : digitsBound r = 8 * (digits_per_byte r).1 / (digits_per_byte r).2 := rfl
  rw [hD] at h1 h2 h3
  refine ⟨h1, by omega, ?_⟩
  rw [h3]
  generalize 8 * (digits_per_byte r).1 / (digits_per_byte r).2 = D
  unfold ceilDiv
  have h4 : (D + 1 + w - 1) / w ≤ (1 + w + D) / w :=
    Nat.div_le_div_right (by omega)
  have h5 := Nat.mul_le_mul_right w h4
  omega

/-- Witness of the amended C7 at radix 10 and width 3. -/
theorem C7_capacity_witness :
    2 ^ 63 ≤ 10 ^ (8 * (digits_per_byte 10).1 / (digits_per_byte 10).2 + 1) ∧
    digit_count_max 10 3 ≥ 1 + (8 * (digits_per_byte 10).1 / (digits_per_byte 10).2 + 1) + 1 ∧
    digit_count_max 10 3
      ≥ ceilDiv (8 * (digits_per_byte 10).1 / (digits_per_byte 10).2 + 1) 3 * 3 + 1 :=
  C7_capacity 10 3 (by decide) (by decide) (by decide) (by decide)

/-- C8: for a valid radix and width and a 64-bit `n` other than `0` and `-2^63`, the text
emitted by `print` is a sign followed by digits, and its first digit character is not
`'0'`. -/
theorem C8_no_leading_zero (r w : Nat) (n : Int) (uninit : Nat → Char) (hr : 2 ≤ r)
    (hr36 : r ≤ 36) (hw : 1 ≤ w) (hrep : r ^ w ≤ 2 ^ 31 - 1) (hn0 : n ≠ 0)
    (hlo : - 2 ^ 63 < n) (hhi : n < 2 ^ 63) :
    ∃ sign d rest, integer_printer_t.print r w [n] uninit = some (sign :: d :: rest) ∧
      (sign = '-' ∨ sign = '+') ∧ (∃ v, v < r ∧ d = digitChar v) ∧ d ≠ '0' := by
  have hp := print_spec r w hr hr36 hw hrep [n] (by
    intro m hm
    simp only [List.mem_singleton] at hm
    subst hm
    exact ⟨hlo, hhi⟩) uninit
  have hN : n.natAbs ≠ 0 := by omega
  have hL : 0 < (Nat.digits r n.natAbs).length := by
    rcases Nat.eq_zero_or_pos (Nat.digits r n.natAbs).length with h | h
    · exact absurd (Nat.digits_eq_nil_iff_eq_zero.mp (List.length_eq_zero.mp h)) hN
    · exact h
  have hhead := digitsText_getElem? r hr n.natAbs 0 hL
  have hlead := leading_digit r hr n.natAbs hN
  have hlt : n.natAbs / r ^ ((Nat.digits r n.natAbs).length - 1) % r < r :=
    Nat.mod_lt _ (by omega)
  cases hdt : digitsText r n.natAbs with
  | nil => rw [hdt] at hhead; simp at hhead
  | cons d rest =>
    rw [hdt] at hhead
    simp only [List.getElem?_cons_zero, Option.some.injEq, Nat.sub_zero] at hhead
    refine ⟨if n < 0 then '-' else '+', d, rest ++ [' '], ?_, ?_, ⟨_, hlt, hhead⟩, ?_⟩
    · rw [hp]
      simp [printed, text, hn0, hdt]
    · split
      · exact Or.inl rfl
      · exact Or.inr rfl
    · rw [hhead]
      intro h
      exact hlead ((digitChar_eq_zero_iff _ (by omega)).mp h)

/-- Witness of C8 at radix 2, width 2 and `n = 1`. -/
theorem C8_no_leading_zero_witness :
    ∃ sign d rest,
      integer_printer_t.print 2 2 [1] (fun _ => '0') = some (sign :: d :: rest) ∧
      (sign = '-' ∨ sign = '+') ∧ (∃ v, v < 2 ∧ d = digitChar v) ∧ d ≠ '0' :=
  C8_no_leading_zero 2 2 1 (fun _ => '0') (by decide) (by decide) (by decide) (by decide)
    (by decide) (by decide) (by decide)

/-- C9: for a valid radix and width, the text `print` emits for `n = 0` is the single
character `'0'`, without a sign, followed by the separator. -/
theorem C9_zero (r w : Nat) (uninit : Nat → Char) (hr : 2 ≤ r) (hr36 : r ≤ 36)
    (hw : 1 ≤ w) (hrep : r ^ w ≤ 2 ^ 31 - 1) :
    integer_printer_t.print r w [0] uninit = some ['0', ' '] := by
  rw [print_spec r w hr hr36 hw hrep [0] (by
    intro m hm
    simp only [List.mem_singleton] at hm
    subst hm
    norm_num) uninit]
  rfl

/-- Witness of C9 at radix 36 and width 1. -/
theorem C9_zero_witness : integer_printer_t.print 36 1 [0] (fun _ => '0') = some ['0', ' '] :=
  C9_zero 36 1 (fun _ => '0') (by decide) (by decide) (by decide) (by decide)

/-- C10: the constructor of `digit_blocks_t<w, r>`, which the program only runs in
constant evaluation, is refused whenever `r^w` exceeds `2^31-1`; and whenever it is
accepted, the radix is in 2..36 and `block_number = pow(r, w)` is `r^w` exactly. -/
theorem C10_overflow_refused (r w : Nat) :
    (2 ^ 31 - 1 < r ^ w → digit_blocks_t.construct w r = none) ∧
    (∀ t, digit_blocks_t.construct w r = some t →
      2 ≤ r ∧ r ≤ 36 ∧ t.block_number = r ^ w ∧ pow r w = r ^ w) := by
  have hacc : ∀ t, digit_blocks_t.construct w r = some t →
      2 ≤ r ∧ r ≤ 36 ∧ t.block_number = r ^ w ∧ pow r w = r ^ w := by
    intro t ht
    obtain ⟨h1, h2, h3, _, h5⟩ := construct_succ r w t ht
    exact ⟨by omega, by omega, h3, h5⟩
  refine ⟨?_, hacc⟩
  intro hover
  cases hc : digit_blocks_t.construct w r with
  | none => rfl
  | some t =>
    obtain ⟨_, _, _, h4, _⟩ := construct_succ r w t hc
    omega

/-- Witness of C10: radix 3 and width 21, where `pow` wraps to a value that fits `int`,
are refused; radix 2 and width 1 are accepted with `block_number = 2`. -/
theorem C10_overflow_refused_witness :
    pow 3 21 = 1870418611 ∧ digit_blocks_t.construct 21 3 = none ∧
    ∃ t, digit_blocks_t.construct 1 2 = some t ∧ t.block_number = 2 ^ 1 :=
  ⟨by decide, (C10_overflow_refused 3 21).1 (by decide),
    ⟨⟨1, 2, 2, [['0'], ['1']]⟩, by decide,
      ((C10_overflow_refused 2 1).2 ⟨1, 2, 2, [['0'], ['1']]⟩ (by decide)).2.2.1⟩⟩

/-- C11 (what the code does): for a valid radix and width, the text emitted for
`n = -2^63`, with the negation wrapping to 64 bits, is the bare sign `-` with no digit,
followed by the separator; it is not a base-`r` integer literal. The input is neither
rejected nor printed correctly. -/
theorem C11_min_value_bare_sign (r w : Nat) (uninit : Nat → Char) (hr : 2 ≤ r)
    (hr36 : r ≤ 36) (hw : 1 ≤ w) (hrep : r ^ w ≤ 2 ^ 31 - 1) :
    integer_printer_t.print r w [- 2 ^ 63] uninit = some ['-', ' '] ∧
    parseInteger r ['-'] = none :=
  ⟨print_min_value r w hr hr36 hw hrep uninit, by simp [parseInteger]⟩

/-- Witness of C11 at radix 10 and width 1. -/
theorem C11_min_value_bare_sign_witness :
    integer_printer_t.print 10 1 [- 2 ^ 63] (fun _ => 'x') = some ['-', ' '] ∧
    parseInteger 10 ['-'] = none :=
  C11_min_value_bare_sign 10 1 (fun _ => 'x') (by decide) (by decide) (by decide) (by decide)

/-- C12: `digits[v]` is the character `'0'+v` for `0 ≤ v ≤ 9` and `'A'+(v-10)` for
`10 ≤ v ≤ 35`, and `v ↦ digits[v]` is injective on `0..35`. -/
theorem C12_digit_alphabet :
    (∀ v, v ≤ 9 → digits v = Char.ofNat ('0'.toNat + v)) ∧
    (∀ v, 10 ≤ v → v ≤ 35 → digits v = Char.ofNat ('A'.toNat + (v - 10))) ∧
    (∀ u v, u ≤ 35 → v ≤ 35 → digits u = digits v → u = v) := by
  refine ⟨?_, ?_, ?_⟩
  · intro v hv
    interval_cases v <;> decide
  · intro v h1 h2
    interval_cases v <;> decide
  · intro u v hu hv
    interval_cases u <;> interval_cases v <;> decide

/-- Witness of C12: `digits[7]` is `'7'`, `digits[35]` is `'Z'`, and `digits[11]` and
`digits[12]` differ. -/
theorem C12_digit_alphabet_witness :
    digits 7 = '7' ∧ digits 35 = 'Z' ∧ (digits 11 = digits 12 → 11 = 12) :=
  ⟨C12_digit_alphabet.1 7 (by decide), C12_digit_alphabet.2.1 35 (by decide) (by decide),
    C12_digit_alphabet.2.2 11 12 (by decide) (by decide)⟩

/-- C13, as stated, fails: with radix 2 and width 4 the text emitted for `n = 10` is
`+1010`, not `1010`. -/
theorem C13_counterexample :
    integer_printer_t.print 2 4 [10] (fun _ => 'x') = some ['+', '1', '0', '1', '0', ' '] ∧
    ['+', '1', '0', '1', '0'] ≠ ['1', '0', '1', '0'] := by
  decide

/-- C13, amended: the text emitted before the separator is, with radix 10 and width 3,
`0` for 0, `+5` for 5, `+1234` for 1234 and `-42` for -42; with radix 2 and width 4,
`+1010` for 10 and `-1010` for -10; with radix 16 and width 2, `+FF` for 255. -/
theorem C13_scenarios (uninit : Nat → Char) :
    integer_printer_t.print 10 3 [0] uninit = some ['0', ' '] ∧
    integer_printer_t.print 10 3 [5] uninit = some ['+', '5', ' '] ∧
    integer_printer_t.print 10 3 [1234] uninit = some ['+', '1', '2', '3', '4', ' '] ∧
    integer_printer_t.print 10 3 [-42] uninit = some ['-', '4', '2', ' '] ∧
    integer_printer_t.print 2 4 [10] uninit = some ['+', '1', '0', '1', '0', ' '] ∧
    integer_printer_t.print 2 4 [-10] uninit = some ['-', '1', '0', '1', '0', ' '] ∧
    integer_printer_t.print 16 2 [255] uninit = some ['+', 'F', 'F', ' '] := by
  have hrange : ∀ (m : Int), - 2 ^ 63 < m → m < 2 ^ 63 →
      ∀ n ∈ [m], - 2 ^ 63 < n ∧ n < 2 ^ 63 := by
    intro m h1 h2 n hn
    simp only [List.mem_singleton] at hn
    subst hn
    exact ⟨h1, h2⟩
  refine ⟨?_, ?_, ?_, ?_, ?_, ?_, ?_⟩
  · rw [print_spec 10 3 (by decide) (by decide) (by decide) (by decide) [0]
      (hrange 0 (by decide) (by decide)) uninit]
    simp [printed, text]
  · rw [print_spec 10 3 (by decide) (by decide) (by decide) (by decide) [5]
      (hrange 5 (by decide) (by decide)) uninit]
    simp [printed, text, digitsText, digitChar]
  · rw [print_spec 10 3 (by decide) (by decide) (by decide) (by decide) [1234]
      (hrange 1234 (by decide) (by decide)) uninit]
    simp [printed, text, digitsText, digitChar]
  · rw [print_spec 10 3 (by decide) (by decide) (by decide) (by decide) [-42]
      (hrange (-42) (by decide) (by decide)) uninit]
    simp [printed, text, digitsText, digitChar]
  · rw [print_spec 2 4 (by decide) (by decide) (by decide) (by decide) [10]
      (hrange 10 (by decide) (by decide)) uninit]
    simp [printed, text, digitsText, digitChar]
  · rw [print_spec 2 4 (by decide) (by decide) (by decide) (by decide) [-10]
      (hrange (-10) (by decide) (by decide)) uninit]
    simp [printed, text, digitsText, digitChar]
  · rw [print_spec 16 2 (by decide) (by decide) (by decide) (by decide) [255]
      (hrange 255 (by decide) (by decide)) uninit]
    simp [printed, text, digitsText, digitChar]

/-- C14: for every radix `r` in 2..36, with `(n, d) = digits_per_byte[r]`: `n` and `d`
are positive and coprime, `D = 800*d/n` is an integer, `2^D ≤ r^100 < 2^(D+1)` (that
is, `D = floor(100*log2(r))`), and `r^n ≥ 2^(8*d)` (that is, `n/d ≥ 8/log2(r)`). -/
theorem C14_digits_per_byte (r : Nat) (hr : 2 ≤ r) (hr36 : r ≤ 36) :
    0 < (digits_per_byte r).1 ∧ 0 < (digits_per_byte r).2 ∧
    Nat.Coprime (digits_per_byte r).1 (digits_per_byte r).2 ∧
    (digits_per_byte r).1 ∣ 800 * (digits_per_byte r).2 ∧
    2 ^ (800 * (digits_per_byte r).2 / (digits_per_byte r).1) ≤ r ^ 100 ∧
    r ^ 100 < 2 ^ (800 * (digits_per_byte r).2 / (digits_per_byte r).1 + 1) ∧
    2 ^ (8 * (digits_per_byte r).2) ≤ r ^ (digits_per_byte r).1 := by
  interval_cases r <;>
    simp only [digits_per_byte, digits_per_byte_table, List.getD_cons_succ,
      List.getD_cons_zero] <;>
    norm_num

/-- Witness of C14 at radix 10, whose entry is `{200, 83}`. -/
theorem C14_digits_per_byte_witness :
    0 < (digits_per_byte 10).1 ∧ 0 < (digits_per_byte 10).2 ∧
    Nat.Coprime (digits_per_byte 10).1 (digits_per_byte 10).2 ∧
    (digits_per_byte 10).1 ∣ 800 * (digits_per_byte 10).2 ∧
    2 ^ (800 * (digits_per_byte 10).2 / (digits_per_byte 10).1) ≤ 10 ^ 100 ∧
    10 ^ 100 < 2 ^ (800 * (digits_per_byte 10).2 / (digits_per_byte 10).1 + 1) ∧
    2 ^ (8 * (digits_per_byte 10).2) ≤ 10 ^ (digits_per_byte 10).1 :=
  C14_digits_per_byte 10 (by decide) (by decide)

/-- C15: for a valid radix and width and every `n` with `0 < n < 2^63`, the loop
`while( n>0 )` of `print`, entered at `position = digit_count_max-2`, terminates after
exactly `ceil(L / w)` block copies, `L` being the number of base-`r` digits of `n`: it
leaves `position` lowered by `ceil(L / w) * w` and has made exactly the
`ceil(L / w) * w` stores at the indices below the terminator, in descending order; and
every single block copy lowers `position` by exactly `w` with `w` stores. -/
theorem C15_block_loop_count (r w : Nat) (t : digit_blocks_t) (n : Int) (st : PrintState)
    (hr : 2 ≤ r) (hr36 : r ≤ 36) (hw : 1 ≤ w) (hrep : r ^ w ≤ 2 ^ 31 - 1)
    (ht : digit_blocks_t.construct w r = some t) (hn : 0 < n) (hn63 : n < 2 ^ 63)
    (hlen : st.s.length = digit_count_max r w) :
    (∃ st1,
      block_loop t (8 * sizeof_integer) n ((digit_count_max r w : Int) - 2) st
        = some ((digit_count_max r w : Int) - 2
            - ((ceilDiv (Nat.digits r n.toNat).length w * w : Nat) : Int), st1) ∧
      st1.trace
        = storesDown ((digit_count_max r w : Int) - 2)
            (ceilDiv (Nat.digits r n.toNat).length w * w) ++ st.trace ∧
      (storesDown ((digit_count_max r w : Int) - 2)
            (ceilDiv (Nat.digits r n.toNat).length w * w)).length
        = ceilDiv (Nat.digits r n.toNat).length w * w) ∧
    (∀ (rv position : Int) (st0 : PrintState) (p0 : Int) (st2 : PrintState),
      copy_block t rv (position - (w : Int)) w position st0 = some (p0, st2) →
      p0 = position - (w : Int) ∧ st2.trace = storesDown position w ++ st0.trace) := by
  obtain ⟨t', hc, htab⟩ := construct_spec r w hr hr36 hrep
  rw [ht] at hc
  cases hc
  have hw31 := width_lt r w hr hrep
  obtain ⟨st1, _, _, _, hb, htr, _⟩ :=
    print_steps htab hr hr36 hw (by omega) st hlen '+' n.toNat (by omega) (by omega)
  have hcast : ((n.toNat : Nat) : Int) = n := by omega
  rw [hcast] at hb
  refine ⟨⟨st1, hb, htr, storesDown_length _ _⟩, ?_⟩
  intro rv position st0 p0 st2 h
  exact copy_block_inv t rv _ w position st0 p0 st2 h (by omega)

/-- Witness of C15 at radix 2, width 2 and `n = 5` (three digits, two blocks). -/
theorem C15_block_loop_count_witness :
    (∃ st1,
      block_loop ⟨2, 2, 4, [['0', '0'], ['0', '1'], ['1', '0'], ['1', '1']]⟩
          (8 * sizeof_integer) 5 ((digit_count_max 2 2 : Int) - 2)
          ⟨List.replicate 67 'x', [], []⟩
        = some ((digit_count_max 2 2 : Int) - 2
            - ((ceilDiv (Nat.digits 2 (5 : Int).toNat).length 2 * 2 : Nat) : Int), st1) ∧
      st1.trace
        = storesDown ((digit_count_max 2 2 : Int) - 2)
            (ceilDiv (Nat.digits 2 (5 : Int).toNat).length 2 * 2) ++ [] ∧
      (storesDown ((digit_count_max 2 2 : Int) - 2)
            (ceilDiv (Nat.digits 2 (5 : Int).toNat).length 2 * 2)).length
        = ceilDiv (Nat.digits 2 (5 : Int).toNat).length 2 * 2) ∧
    (∀ (rv position : Int) (st0 : PrintState) (p0 : Int) (st2 : PrintState),
      copy_block ⟨2, 2, 4, [['0', '0'], ['0', '1'], ['1', '0'], ['1', '1']]⟩ rv
          (position - (2 : Int)) 2 position st0 = some (p0, st2) →
      p0 = position - (2 : Int) ∧ st2.trace = storesDown position 2 ++ st0.trace) :=
  C15_block_loop_count 2 2 ⟨2, 2, 4, [['0', '0'], ['0', '1'], ['1', '0'], ['1', '1']]⟩ 5
    ⟨List.replicate 67 'x', [], []⟩ (by decide) (by decide) (by decide) (by decide)
    (by decide) (by decide) (by decide) (by decide)

/-- C16: for a valid radix and width and `n` with `0 < n < 2^63` and `L` base-`r` digits,
after the block-copy loop has written `ceil(L / w)` blocks, the scan
`while( s[++position]==digits[0] )` passes exactly `w*ceil(L/w) - L` characters `'0'`,
fewer than `w`, and stops on the next character, which is the non-zero leading digit
of `n`, inside the first written block and below the terminator; the sign is then
stored at the index immediately before that digit. -/
theorem C16_leading_zero_scan (r w : Nat) (t : digit_blocks_t) (n : Int) (st : PrintState)
    (sign : Char) (hr : 2 ≤ r) (hr36 : r ≤ 36) (hw : 1 ≤ w) (hrep : r ^ w ≤ 2 ^ 31 - 1)
    (ht : digit_blocks_t.construct w r = some t) (hn : 0 < n) (hn63 : n < 2 ^ 63)
    (hlen : st.s.length = digit_count_max r w) :
    ∃ (st1 st2 st3 : PrintState) (p1 p2 : Int) (v : Nat),
      block_loop t (8 * sizeof_integer) n ((digit_count_max r w : Int) - 2) st
        = some (p1, st1) ∧
      p1 = (digit_count_max r w : Int) - 2
            - ((ceilDiv (Nat.digits r n.toNat).length w * w : Nat) : Int) ∧
      skip_zeros (digit_count_max r w + 1) p1 st1 = some (p2, st2) ∧
      p2 = p1 + 1 + ((w * ceilDiv (Nat.digits r n.toNat).length w
                        - (Nat.digits r n.toNat).length : Nat) : Int) ∧
      w * ceilDiv (Nat.digits r n.toNat).length w - (Nat.digits r n.toNat).length < w ∧
      (∀ j : Int, p1 < j → j < p2 → sget st1.s j = some '0') ∧
      sget st1.s p2 = some (digitChar v) ∧ v ≠ 0 ∧ v < r ∧ digitChar v ≠ '0' ∧
      p2 ≤ p1 + (w : Int) ∧ p2 < (digit_count_max r w : Int) - 1 ∧
      s_write st2 (p2 - 1) sign = some st3 ∧
      sget st3.s (p2 - 1) = some sign ∧ sget st3.s p2 = some (digitChar v) := by
  obtain ⟨t', hc, htab⟩ := construct_spec r w hr hr36 hrep
  rw [ht] at hc
  cases hc
  have hw31 := width_lt r w hr hrep
  obtain ⟨st1, st2, st3, v, hb, _, hL1, hLk, hpad, hfit, hz, hv0, hvr, hzc, hs, hwr, hsg, hdg⟩ :=
    print_steps htab hr hr36 hw (by omega) st hlen sign n.toNat (by omega) (by omega)
  have hcast : ((n.toNat : Nat) : Int) = n := by omega
  rw [hcast] at hb
  have hcomm : w * ceilDiv (Nat.digits r n.toNat).length w
      = ceilDiv (Nat.digits r n.toNat).length w * w := Nat.mul_comm _ _
  have hp2 : (digit_count_max r w : Int) - 1 - ((Nat.digits r n.toNat).length : Int)
      = (digit_count_max r w : Int) - 2
          - ((ceilDiv (Nat.digits r n.toNat).length w * w : Nat) : Int) + 1
          + ((w * ceilDiv (Nat.digits r n.toNat).length w
                - (Nat.digits r n.toNat).length : Nat) : Int) := by
    rw [hcomm]; omega
  refine ⟨st1, st2, st3, _, _, v, hb, rfl, ?_, rfl, by rw [hcomm]; exact hpad, ?_, ?_, hv0, hvr,
    ?_, ?_, ?_, ?_, ?_, ?_⟩
  · rw [← hp2]; exact hs
  · intro j h1 h2
    exact hz j h1 (by rw [hp2]; exact h2)
  · rw [← hp2]; exact hzc
  · intro h
    exact hv0 ((digitChar_eq_zero_iff v (by omega)).mp h)
  · rw [hcomm]; omega
  · rw [← hp2]; omega
  · rw [← hp2]; exact hwr
  · rw [← hp2]; exact hsg
  · rw [← hp2]; exact hdg

/-- Witness of C16 at radix 2, width 2, `n = 5` and sign `'+'`. -/
theorem C16_leading_zero_scan_witness :
    ∃ (st1 st2 st3 : PrintState) (p1 p2 : Int) (v : Nat),
      block_loop ⟨2, 2, 4, [['0', '0'], ['0', '1'], ['1', '0'], ['1', '1']]⟩
          (8 * sizeof_integer) 5 ((digit_count_max 2 2 : Int) - 2)
          ⟨List.replicate 67 'x', [], []⟩
        = some (p1, st1) ∧
      p1 = (digit_count_max 2 2 : Int) - 2
            - ((ceilDiv (Nat.digits 2 (5 : Int).toNat).length 2 * 2 : Nat) : Int) ∧
      skip_zeros (digit_count_max 2 2 + 1) p1 st1 = some (p2, st2) ∧
      p2 = p1 + 1 + ((2 * ceilDiv (Nat.digits 2 (5 : Int).toNat).length 2
                        - (Nat.digits 2 (5 : Int).toNat).length : Nat) : Int) ∧
      2 * ceilDiv (Nat.digits 2 (5 : Int).toNat).length 2
        - (Nat.digits 2 (5 : Int).toNat).length < 2 ∧
      (∀ j : Int, p1 < j → j < p2 → sget st1.s j = some '0') ∧
      sget st1.s p2 = some (digitChar v) ∧ v ≠ 0 ∧ v < 2 ∧ digitChar v ≠ '0' ∧
      p2 ≤ p1 + (2 : Int) ∧ p2 < (digit_count_max 2 2 : Int) - 1 ∧
      s_write st2 (p2 - 1) '+' = some st3 ∧
      sget st3.s (p2 - 1) = some '+' ∧ sget st3.s p2 = some (digitChar v) :=
  C16_leading_zero_scan 2 2 ⟨2, 2, 4, [['0', '0'], ['0', '1'], ['1', '0'], ['1', '1']]⟩ 5
    ⟨List.replicate 67 'x', [], []⟩ '+' (by decide) (by decide) (by decide) (by decide)
    (by decide) (by decide) (by decide) (by decide)

/-- C17: for a valid radix and width, running `filling<0>` from `i = 0` on the
zero-initialised array ends with `i = r^w` and yields the constructed table; every cell
`blocks[k][p]` with `k < r^w` and `p < w` is assigned during the run; every assignment is
to such a cell, so no row `k ≥ r^w` is written; every copy `blocks[i][j] = blocks[i-1][j]`
is executed with `i ≥ 1`; and every index passed to the alphabet is below `r ≤ 36`. -/
theorem C17_fill_index_safety (r w : Nat) (hr : 2 ≤ r) (hr36 : r ≤ 36) (hw : 1 ≤ w)
    (hrep : r ^ w ≤ 2 ^ 31 - 1) :
    ∃ t log, digit_blocks_t.construct w r = some t ∧
      filling_logged r w 0
          ({ blocks := List.replicate (r ^ w) (List.replicate w (Char.ofNat 0)), i := 0 }, [])
        = some ({ blocks := t.blocks, i := r ^ w }, log) ∧
      (∀ k p, k < r ^ w → p < w →
        FillEvent.store k p ∈ log ∨ FillEvent.copy k p ∈ log) ∧
      (∀ k p, FillEvent.store k p ∈ log ∨ FillEvent.copy k p ∈ log → k < r ^ w ∧ p < w) ∧
      (∀ k p, FillEvent.copy k p ∈ log → 1 ≤ k) ∧
      (∀ index, FillEvent.digit index ∈ log → index < r ∧ r ≤ 36) := by
  have hbn := block_number_eq w r hr hr36 hrep
  have hshape : Shape (r ^ w) w (List.replicate (r ^ w) (List.replicate w (Char.ofNat 0))) := by
    refine ⟨by simp, ?_⟩
    intro row hrow
    rw [List.eq_of_mem_replicate hrow]
    simp
  obtain ⟨st, hf, hi, _, _⟩ :=
    filling_spec hr (show r ^ w < 2 ^ 32 by omega) w 0 (by omega)
      { blocks := List.replicate (r ^ w) (List.replicate w (Char.ofNat 0)), i := 0 }
      (by simp) (by simp) hshape (by intro row h; simp at h) (by intro col h; omega)
  simp only [Nat.zero_add] at hi
  have her := filling_erase r w 0
    { blocks := List.replicate (r ^ w) (List.replicate w (Char.ofNat 0)), i := 0 } []
  rw [hf] at her
  cases hl : filling_logged r w 0
      ({ blocks := List.replicate (r ^ w) (List.replicate w (Char.ofNat 0)), i := 0 }, []) with
  | none => rw [hl] at her; simp at her
  | some x =>
    obtain ⟨st', log⟩ := x
    rw [hl] at her
    simp only [Option.map_some', Option.some.injEq] at her
    subst her
    obtain ⟨_, _, _, new, hnew, hok, hcov0, hcov⟩ :=
      filling_logged_spec hr (show r ^ w < 2 ^ 32 by omega) w 0 (by omega) _ [] st' log hshape
        (fun h0 => by omega) hl
    simp only [List.append_nil] at hnew
    subst hnew
    simp only [Nat.zero_add] at hok hcov0 hcov
    refine ⟨{ digits_per_block := w, base := r, block_number := r ^ w, blocks := st'.blocks },
      log, ?_, ?_, ?_, ?_, ?_, ?_⟩
    · simp only [digit_blocks_t.construct, hbn, hf]
    · rw [← hi]
    · intro k p hk hp
      rcases Nat.eq_zero_or_pos k with h0 | h0
      · subst h0
        exact hcov0 p (by omega) hp
      · exact hcov k p h0 hk hp
    · intro k p h
      rcases h with h | h
      · have := hok _ h
        exact ⟨this.2.1, this.2.2⟩
      · have := hok _ h
        exact ⟨this.2.1, this.2.2⟩
    · intro k p h
      have := hok _ h
      exact this.1
    · intro index h
      exact ⟨hok _ h, hr36⟩

/-- Witness of C17 at radix 3 and width 2. -/
theorem C17_fill_index_safety_witness :
    ∃ t log, digit_blocks_t.construct 2 3 = some t ∧
      filling_logged 3 2 0
          ({ blocks := List.replicate (3 ^ 2) (List.replicate 2 (Char.ofNat 0)), i := 0 }, [])
        = some ({ blocks := t.blocks, i := 3 ^ 2 }, log) ∧
      (∀ k p, k < 3 ^ 2 → p < 2 →
        FillEvent.store k p ∈ log ∨ FillEvent.copy k p ∈ log) ∧
      (∀ k p, FillEvent.store k p ∈ log ∨ FillEvent.copy k p ∈ log → k < 3 ^ 2 ∧ p < 2) ∧
      (∀ k p, FillEvent.copy k p ∈ log → 1 ≤ k) ∧
      (∀ index, FillEvent.digit index ∈ log → index < 3 ∧ 3 ≤ 36) :=
  C17_fill_index_safety 3 2 (by decide) (by decide) (by decide) (by decide)

/-- C18 (what the code does): `test_range<0,5,2,10>::call` invokes `tester` for the block
sizes 0, 2, 4 and 6, the last above `block_size_max = 5`, where the sizes not exceeding
5 are 0, 2, 4; the two ranges used in `main`, with step 1, are 0..5 and 0..16. -/
theorem C18_test_range_overshoot :
    test_range.call 0 5 2 10 = some [(10, 0), (10, 2), (10, 4), (10, 6)] ∧
    rangeSizes 0 5 2 = [0, 2, 4] ∧
    test_range.call 0 5 1 10 = some ((rangeSizes 0 5 1).map (fun b => (10, b))) ∧
    test_range.call 0 16 1 2 = some ((rangeSizes 0 16 1).map (fun b => (2, b))) := by
  decide

end NumberToDigits
